import Mathlib

/-!
Verification development for the go-cliutil command registry and
resolution engine.  The Go sources under consideration are shallowly
embedded below: commands are heap-allocated mutable records, modelled as
entries of a `cmdHeap` list addressed by index (pointer identity =
index); flag sets are likewise heap entries so that sharing by
reference is visible; Go maps are modelled as association lists where a
freshly inserted pair is prepended and lookup takes the first hit
(newest wins, matching overwrite semantics).  Panics (nil dereferences)
are modelled explicitly.
-/

namespace Cliutil

/-- A flag definition, from `src/flag_def.go` (`FlagDef`).  The four
binding-target pointer fields are modelled by presence booleans, since
only their nil-ness is ever branched on by the code under study. -/
structure FlagDef where
  name : String
  shortcut : Nat := 0
  usage : String := ""
  required : Bool := false
  hasString : Bool := false
  hasBool : Bool := false
  hasInt : Bool := false
  hasInt64 : Bool := false
deriving DecidableEq, Repr

instance : Inhabited FlagDef := ⟨{ name := "" }⟩

/-- A named, ordered group of flag definitions.  The `FlagSet` struct
itself is declared outside `src/` (only its uses appear there); its two
fields `Name` and `FlagDefs` are taken from the composite literals in
`src/cli_options.go`. -/
structure FlagSet where
  name : String
  flagDefs : List FlagDef
deriving DecidableEq, Repr

instance : Inhabited FlagSet := ⟨{ name := "", flagDefs := [] }⟩

/-- Modelled from the spec: `FlagSet.FlagNames` is not under `src/`
(only its call sites in `src/cmd_runner.go` are).  Per the spec a
FlagSet is "a named, ordered group of FlagDefinitions", and raw-flag
validation compares against "all flag names" of a set, so `FlagNames`
returns the names of the definitions in order. -/
def flagNames (fs : FlagSet) : List String :=
  fs.flagDefs.map (·.name)

/-- A positional argument definition, from `src/arg_def.go` (`ArgDef`).
The `String *string` binding target is modelled by a presence boolean. -/
structure ArgDef where
  name : String
  usage : String := ""
  required : Bool := false
  hasTarget : Bool := true
deriving DecidableEq, Repr

/-- The per-command mutable state, from `src/cmd_base.go` (`CmdBase`).
`tname` models the command's reflect type identity (distinct Go command
types have distinct names); `parentTypes` and `delegateTo` store type
identities exactly as the Go code does; `flagSets` and `subCommands`
hold heap indices so that sharing by reference is faithful. -/
structure CmdState where
  tname : String
  name : String
  flagSets : List Nat := []
  argDefs : List ArgDef := []
  delegateTo : Option String := none
  flagName : String := ""
  parentTypes : List String := []
  subCommands : List Nat := []
deriving DecidableEq, Repr

instance : Inhabited CmdState := ⟨{ tname := "", name := "" }⟩

/-- The process-wide registry state, from `src/commands.go`:
`commands`, `commandsTypeMap`, `commandsPathMap`, `flagCommandMap`,
plus the two heaps that model Go pointers.  `fsHeap` index 0 is the
package-level global `flagset` of `src/cli_options.go`. -/
structure Reg where
  fsHeap : List FlagSet
  cmdHeap : List CmdState
  commands : List Nat
  typeMap : List (String × Nat)
  pathMap : List (String × Nat)
  flagCmdMap : List (String × Nat)
deriving DecidableEq, Repr

/-- Go map lookup on the association-list model: first (most recently
inserted) binding wins. -/
def lookupA (m : List (String × Nat)) (k : String) : Option Nat :=
  (m.find? (fun p => p.1 == k)).map (·.2)

/-- Dereference a command heap index (Go pointers are always valid when
produced by this code, so a default is used out of range). -/
def cmdAt (reg : Reg) (i : Nat) : CmdState :=
  reg.cmdHeap.getD i default

/-- Dereference a flag-set heap index. -/
def fsAt (reg : Reg) (i : Nat) : FlagSet :=
  reg.fsHeap.getD i default

/-! ### String helpers mirroring the Go `strings` functions used -/

/-- `strings.HasPrefix s pre`. -/
def strHasPre (s pre : String) : Bool :=
  pre.data.isPrefixOf s.data

/-- `strings.TrimPrefix s pre`. -/
def strTrimPre (s pre : String) : String :=
  if strHasPre s pre then ⟨s.data.drop pre.data.length⟩ else s

/-- `strings.TrimLeft s "."`. -/
def dropDots (s : String) : String :=
  ⟨s.data.dropWhile (fun c => c == '.')⟩

/-- `strings.TrimSpace`. -/
def trimSpace (s : String) : String :=
  ⟨((s.data.dropWhile Char.isWhitespace).reverse.dropWhile Char.isWhitespace).reverse⟩

/-- The flag-name extraction done by `validateFlags` in
`src/cmd_runner.go`: strip up to two leading dashes, then cut at the
first `=` (`flagName[:equalPos]`). -/
def stripFlagToken (flag : String) : String :=
  let n1 := strTrimPre flag "-"
  let n2 := strTrimPre n1 "-"
  ⟨n2.data.takeWhile (fun c => c ≠ '=')⟩

/-! ### Global CLI options (`src/cli_options.go`) -/

/-- The regular expression `^[a-z0-9-]+$` used by `AddCLIOption` to
validate flag names. -/
def flagNameOk (s : String) : Bool :=
  !s.data.isEmpty && s.data.all (fun c => c.isLower || c.isDigit || c == '-')

/-- `AddCLIOption` from `src/cli_options.go`, lines 124-186: validates
the definition (name shape, duplicate against the global flag set,
exactly one binding type, non-empty usage) and, only when all checks
pass, appends it to the global flag set (heap index 0).  Errors are
modelled as a list of message strings; the Go wrapping with
`ErrFlagValidationFailed` adds context only and is not tracked. -/
def addCLIOption (reg : Reg) (fd : FlagDef) : Reg × List String :=
  let gfs := fsAt reg 0
  let e1 : List String :=
    if fd.name = "" then ["empty Name"]
    else if !flagNameOk fd.name then
      ["invalid flag name: may contain only lowercase letters, numbers, and dashes"]
    else []
  let e2 : List String :=
    if gfs.flagDefs.any (fun ex => ex.name == fd.name) then
      ["duplicate flag in global flags"]
    else []
  let typeCount :=
    (if fd.hasString then 1 else 0) + (if fd.hasBool then 1 else 0) +
    (if fd.hasInt then 1 else 0) + (if fd.hasInt64 then 1 else 0)
  let e3 : List String :=
    if typeCount = 1 then []
    else ["flag type is not discoverable: exactly one of .String, .Bool, .Int, .Int64 must be non-nil"]
  let e4 : List String :=
    if trimSpace fd.usage = "" then ["empty Usage"] else []
  let errs := e1 ++ e2 ++ e3 ++ e4
  if errs.isEmpty then
    ({ reg with fsHeap := reg.fsHeap.set 0 { gfs with flagDefs := gfs.flagDefs ++ [fd] } }, [])
  else (reg, errs)

/-- `extractFlags` from `src/cli_options.go`: keep the dash-prefixed
tokens. -/
def extractFlags (args : List String) : List String :=
  args.filter (fun a => strHasPre a "-")

/-- `containsHelpFlag` from `src/cli_options.go`: remove the first
token starting with `--help` and report whether one was found. -/
def containsHelpFlag (args : List String) : Bool × List String :=
  match args.findIdx? (fun a => strHasPre a "--help") with
  | some i => (true, args.eraseIdx i)
  | none => (false, args)

/-- `transformFlagCommands` from `src/cli_options.go`: if the first
token is `--name` and the first registered command with trigger
flag-name `name` also has a matching global flag, rewrite the first
token to that command's leaf name. -/
def transformFlagCommands (reg : Reg) (args : List String) : List String :=
  match args with
  | [] => args
  | firstArg :: rest =>
    if !strHasPre firstArg "--" then args
    else
      let fn := strTrimPre firstArg "--"
      match (reg.commands.map (cmdAt reg)).find? (fun c => c.flagName == fn) with
      | none => args
      | some c =>
        match reg.fsHeap.head? with
        | none => args
        | some gfs =>
          if gfs.flagDefs.any (fun fd => fd.name == fn) then c.name :: rest
          else args

/-- The `originalFlags` computation of `ParseCLIOptions`
(`src/cli_options.go`, lines 200-215): strip the program name, apply
the flag-routing transform, extract and remove a `--help` token
(prepending the `help` command token when found), then keep the
dash-prefixed tokens.  The remaining steps of `ParseCLIOptions` (global
flag parsing, timeout and verbosity conversion) never touch
`originalFlags`. -/
def parseCLIOptionsKept (reg : Reg) (osArgs : List String) : List String :=
  let args := osArgs.drop 1
  let args := transformFlagCommands reg args
  let hf := containsHelpFlag args
  let args := if hf.1 then "help" :: hf.2 else hf.2
  extractFlags args

/-! ### Registration (`src/commands.go`, `RegisterCommand`) -/

/-- The constructor arguments of `NewCmdBase` that matter to the claims,
plus the command's type identity.  Mirrors `CmdArgs` in
`src/cmd_base.go`. -/
structure CmdSpec where
  tname : String
  name : String
  flagSets : List Nat := []
  argDefs : List ArgDef := []
  delegateTo : Option String := none
  flagName : String := ""
deriving DecidableEq, Repr

/-- `RegisterCommand` from `src/commands.go`, lines 69-119: record the
parent type identities on the command, append it to the flat list,
index it by its own type identity; when a trigger flag-name is
declared, report a conflict with any existing global flag of that name
and auto-register a boolean global flag via `AddCLIOption`.  The Go
wrapping with `ErrCommandRegistrationFailed` adds context only. -/
def registerCommand (reg : Reg) (spec : CmdSpec) (parents : List String) : Reg × List String :=
  let c : CmdState :=
    { tname := spec.tname, name := spec.name, flagSets := spec.flagSets,
      argDefs := spec.argDefs, delegateTo := spec.delegateTo,
      flagName := spec.flagName, parentTypes := parents, subCommands := [] }
  let idx := reg.cmdHeap.length
  let reg :=
    { reg with
      cmdHeap := reg.cmdHeap ++ [c]
      commands := reg.commands ++ [idx]
      typeMap := (spec.tname, idx) :: reg.typeMap }
  if spec.flagName = "" then (reg, [])
  else
    let gfs := fsAt reg 0
    let conflicts :=
      (gfs.flagDefs.filter (fun fd => fd.name == spec.flagName)).map
        (fun fd => "FlagName " ++ spec.flagName ++ " conflicts with existing global flag " ++ fd.name)
    let res := addCLIOption reg
      { name := spec.flagName, usage := "Run " ++ spec.name ++ " command", hasBool := true }
    (res.1, conflicts ++ res.2)

/-! ### FullNames (`src/cmd_base.go`, lines 95-107) -/

/-- Result of a call that may hit a nil-interface dereference (a Go
panic) or exhaust the recursion fuel (a Go stack overflow on cyclic
parent declarations). -/
inductive FNRes where
  | ok (names : List String)
  | nilDeref
  | fuelOut
deriving DecidableEq, Repr

/-- One entry of the `names` array per parent type: resolve the parent
in the type map (a missing parent is a nil dereference), compute the
parent's own full names via `fn`, and keep only the slot's final
overwrite, i.e. the parent's last full name dotted with the leaf name
(an empty parent list leaves the slot's zero value `""`). -/
def fullNamesAux (reg : Reg) (fn : CmdState → FNRes) (cname : String) :
    List String → FNRes
  | [] => .ok []
  | t :: ts =>
    match lookupA reg.typeMap t with
    | none => .nilDeref
    | some pidx =>
      match fn (cmdAt reg pidx) with
      | .ok pns =>
        match fullNamesAux reg fn cname ts with
        | .ok rest =>
          .ok ((match pns.getLast? with
                | some pn => pn ++ "." ++ cname
                | none => "") :: rest)
        | e => e
      | e => e

/-- `FullNames` from `src/cmd_base.go`: one name slot per declared
parent, each slot ending up holding the last full name of that parent
followed by `"." ++ name`; a command without parents is known by its
own leaf name. -/
def fullNames (reg : Reg) : Nat → CmdState → FNRes
  | 0, _ => .fuelOut
  | fuel + 1, c =>
    if c.parentTypes.isEmpty then .ok [c.name]
    else fullNamesAux reg (fullNames reg fuel) c.name c.parentTypes

/-- Fuel sufficient for any acyclic parent chain. -/
def fnFuel (reg : Reg) : Nat := reg.cmdHeap.length + 1

/-- `FullNames` at the standard fuel. -/
def cmdFullNames (reg : Reg) (c : CmdState) : FNRes :=
  fullNames reg (fnFuel reg) c

/-! ### Tree building (`src/commands.go`, `BuildCommandTree`) -/

/-- Errors of `BuildCommandTree`: the "parent command type X not found
for command Y" error, or a crash (nil dereference inside `FullNames`,
or unbounded recursion on cyclic parents). -/
inductive BuildErr where
  | parentNotFound (ptype cname : String)
  | crash
deriving DecidableEq, Repr

/-- Case analysis on an optional value (an explicit eliminator keeps
the embedding rewrite-friendly). -/
def optCase {α β : Type} (x : Option α) (e : β) (f : α → β) : β :=
  match x with
  | none => e
  | some a => f a

/-- Case analysis on a `FullNames` result: proceed on success, stop on
a nil dereference or fuel exhaustion. -/
def fnCase {β : Type} (x : FNRes) (f : List String → β) (e : β) : β :=
  match x with
  | .ok ns => f ns
  | .nilDeref => e
  | .fuelOut => e

/-- `parentCmd.AddSubCommand(cmd)`: append the child's heap index to
the parent's child list (`src/cmd_base.go`, lines 122-124). -/
def addSubCmd (h : List CmdState) (pidx cidx : Nat) : List CmdState :=
  h.set pidx { h.getD pidx default with
               subCommands := (h.getD pidx default).subCommands ++ [cidx] }

/-- Index a command under each of its full names in order; each Go map
assignment is a prepend, so later names shadow earlier ones on equal
keys. -/
def insertAll (fns : List String) (cidx : Nat) (m : List (String × Nat)) :
    List (String × Nat) :=
  fns.foldl (fun acc fn => (fn, cidx) :: acc) m

/-- The registry after `AddSubCommand` on parent `pidx`. -/
def addSubReg (reg : Reg) (pidx cidx : Nat) : Reg :=
  { reg with cmdHeap := addSubCmd reg.cmdHeap pidx cidx }

/-- The registry after indexing `cidx` under the names `fns`. -/
def insertPaths (reg : Reg) (fns : List String) (cidx : Nat) : Reg :=
  { reg with pathMap := insertAll fns cidx reg.pathMap }

/-- The per-parent loop body of `BuildCommandTree` for a child command:
look the parent up by type identity (missing parent: error and stop),
append the child to the parent's list, then index the child under all
of its full names; a crash inside `FullNames` (nil dereference on a
missing later parent, or cyclic parents) aborts. -/
def buildParents (reg : Reg) (cidx : Nat) : List String → Reg × Option BuildErr
  | [] => (reg, none)
  | t :: ts =>
    optCase (lookupA reg.typeMap t)
      (reg, some (.parentNotFound t (cmdAt reg cidx).name))
      (fun pidx =>
        fnCase (cmdFullNames (addSubReg reg pidx cidx) (cmdAt (addSubReg reg pidx cidx) cidx))
          (fun fns => buildParents (insertPaths (addSubReg reg pidx cidx) fns cidx) cidx ts)
          (addSubReg reg pidx cidx, some .crash))

/-- One command of the main `BuildCommandTree` loop: a top-level
command is indexed under its leaf name, a child command is processed
once per declared parent. -/
def buildStep (reg : Reg) (cidx : Nat) : Reg × Option BuildErr :=
  let c := cmdAt reg cidx
  if c.parentTypes.isEmpty then
    ({ reg with pathMap := (c.name, cidx) :: reg.pathMap }, none)
  else buildParents reg cidx c.parentTypes

/-- The main loop of `BuildCommandTree`; an error jumps straight to the
end, skipping both the rest of the loop and the trigger-flag pass. -/
def buildAll (reg : Reg) : List Nat → Reg × Option BuildErr
  | [] => (reg, none)
  | i :: is =>
    optCase (buildStep reg i).2 (buildAll (buildStep reg i).1 is) (fun _ => buildStep reg i)

/-- The trigger-flag pass of `BuildCommandTree`: index every command
that declares a trigger flag-name. -/
def buildFlagMap (reg : Reg) : Reg :=
  { reg with
    flagCmdMap :=
      reg.commands.foldl
        (fun m i =>
          let c := cmdAt reg i
          if c.flagName = "" then m else (c.flagName, i) :: m)
        reg.flagCmdMap }

/-- `BuildCommandTree` from `src/commands.go`, lines 125-170. -/
def buildCommandTree (reg : Reg) : Reg × Option BuildErr :=
  optCase (buildAll reg reg.commands).2
    (buildFlagMap (buildAll reg reg.commands).1, none)
    (fun _ => buildAll reg reg.commands)

/-! ### Validation (`src/commands.go`, `ValidateCommands`) -/

/-- The inner duplicate-name scan of check 1: walk the definitions of
one flag set, reporting each name already seen. -/
def dupScan (fsname : String) : List FlagDef → List String → List String
  | [], _ => []
  | fd :: fds, seen =>
    if seen.contains fd.name then
      ("duplicate FlagDef " ++ fd.name ++ " in FlagSet " ++ fsname) :: dupScan fsname fds seen
    else dupScan fsname fds (fd.name :: seen)

/-- Duplicate-name violations of a single flag set. -/
def dupScanFS (fs : FlagSet) : List String :=
  dupScan fs.name fs.flagDefs []

/-- Check 1, inner loop over one command's flag sets, threading the set
of already-processed flag-set instances (identity = heap index). -/
def check1FS (reg : Reg) (seen : List Nat) : List Nat → List String × List Nat
  | [] => ([], seen)
  | fsi :: rest =>
    if seen.contains fsi then check1FS reg seen rest
    else
      let errs := dupScanFS (fsAt reg fsi)
      let r := check1FS reg (fsi :: seen) rest
      (errs ++ r.1, r.2)

/-- Check 1 of `ValidateCommands`: duplicate flag names, processing
each distinct flag-set instance at most once. -/
def check1Cmds (reg : Reg) (seen : List Nat) : List Nat → List String
  | [] => []
  | i :: is =>
    let r := check1FS reg seen (cmdAt reg i).flagSets
    r.1 ++ check1Cmds reg r.2 is

/-- Check 2 of `ValidateCommands`: every nonzero shortcut must be a
single ASCII byte; iterates over every command's flag sets with no
dedup of shared instances. -/
def check2Cmds (reg : Reg) : List String :=
  reg.commands.flatMap (fun i =>
    let c := cmdAt reg i
    c.flagSets.flatMap (fun fsi =>
      (fsAt reg fsi).flagDefs.filterMap (fun fd =>
        if fd.shortcut ≠ 0 ∧ fd.shortcut > 127 then
          some ("command " ++ c.name ++ ": flag " ++ fd.name ++
                " shortcut must be a single ASCII character")
        else none)))

/-- Check 3 of `ValidateCommands`: a command with parents must not
declare a trigger flag-name. -/
def check3Cmds (reg : Reg) : List String :=
  reg.commands.filterMap (fun i =>
    let c := cmdAt reg i
    if !c.parentTypes.isEmpty ∧ c.flagName ≠ "" then
      some ("command " ++ c.name ++
            ": subcommands cannot have FlagName (only top-level commands can use flag routing)")
    else none)

/-- `ValidateCommands` from `src/commands.go`, lines 174-223; the three
checks run as three separate loops and `errors.Join` keeps their
messages in order. -/
def validateCommands (reg : Reg) : List String :=
  check1Cmds reg [] reg.commands ++ check2Cmds reg ++ check3Cmds reg

/-! ### Resolution (`src/commands.go` and `src/cmd_runner.go`) -/

/-- `GetExactCommand` from `src/commands.go`, lines 226-228. -/
def getExactCommand (reg : Reg) (path : String) : Option Nat :=
  lookupA reg.pathMap path

/-- `GetDefaultCommand` from `src/commands.go`, lines 231-277: resolve
the path; when the command declares a delegate, there is at least one
token and the first token is not a flag, redirect to the delegate
(looked up by type identity) and replace the path by the last of the
delegate's full names extending the current path.  The outer `none`
models a crash inside the delegate's `FullNames`. -/
def getDefaultCommand (reg : Reg) (path : String) (args : List String) :
    Option (Option Nat × String) :=
  match lookupA reg.pathMap path with
  | none => some (none, path)
  | some i =>
    let c := cmdAt reg i
    match c.delegateTo with
    | none => some (some i, path)
    | some dType =>
      if args.isEmpty then some (some i, path)
      else if strHasPre (args.headD "") "-" then some (some i, path)
      else
        match lookupA reg.typeMap dType with
        | none => some (some i, path)
        | some j =>
          match cmdFullNames reg (cmdAt reg j) with
          | .ok fns =>
            some (some j, fns.foldl (fun p fn => if strHasPre fn p then fn else p) path)
          | _ => none

/-- Number of leading non-dash tokens consumed by the resolver. -/
def leadCount (args : List String) : Nat :=
  (args.takeWhile (fun a => !strHasPre a "-")).length

/-- The candidate-path accumulation of `findBestCmdMatch` after the
first token: `tryPath = tryPath + "." + arg`. -/
def ascAux (cur : String) : List String → List String
  | [] => []
  | t :: ts =>
    if strHasPre t "-" then []
    else
      let np := cur ++ "." ++ t
      np :: ascAux np ts

/-- The candidate paths of `findBestCmdMatch` in build order (shortest
first); the first iteration trims the leading dots introduced by
`Sprintf("%s.%s", "", arg)`. -/
def pathsAsc : List String → List String
  | [] => []
  | t :: ts =>
    if strHasPre t "-" then []
    else
      let np := dropDots ("." ++ t)
      np :: ascAux np ts

/-- The candidate loop of `findBestCmdMatch`: candidates are tried
longest first against `GetDefaultCommand` (with the full original
token list); on a hit the tokens beyond the current count are the
remaining input, unless the reported path is empty, and `n` is
decremented per miss.  `none` models a crash propagated from
`GetDefaultCommand`. -/
def fbcmLoop (reg : Reg) (args : List String) : Nat → List String → Option (String × List String)
  | _, [] => some ("", args)
  | n, p :: ps =>
    match getDefaultCommand reg p args with
    | none => none
    | some (none, _) => fbcmLoop reg args (n - 1) ps
    | some (some _, pHit) =>
      if pHit = "" then some (pHit, args) else some (pHit, args.drop n)

/-- `findBestCmdMatch` from `src/cmd_runner.go`, lines 205-243. -/
def findBestCmdMatch (reg : Reg) (args : List String) : Option (String × List String) :=
  fbcmLoop reg args (leadCount args) (pathsAsc args).reverse

/-! ### Flag and argument parsing -/

/-- Modelled from the spec: `FlagSet.Parse` is declared outside `src/`
(only its call sites appear there).  Per §4.6 each pass consumes "its
recognized flags from the remaining tokens and returns what is left";
the token-level grammar and the error conditions of a single pass are
not specified, so a pass consumes exactly the dash-prefixed tokens
whose flag name matches one of the set's definitions and never fails. -/
def fsParse (fs : FlagSet) (args : List String) : List String × Option String :=
  (args.filter (fun a => !(strHasPre a "-" && (flagNames fs).contains (stripFlagToken a))), none)

/-- `ParseFlagSets` from `src/cmd_base.go`, lines 137-149: every flag
set parses in turn, each pass starting from the previous pass's
remainder; all pass errors are joined (never stopping early). -/
def parseFlagSets (reg : Reg) (c : CmdState) (args : List String) :
    List String × List String :=
  c.flagSets.foldl
    (fun acc fsi =>
      let r := fsParse (fsAt reg fsi) acc.1
      (r.1, acc.2 ++ r.2.toList))
    (args, [])

/-- `validateFlags` from `src/cmd_runner.go`, lines 132-202: when any
original flags were kept, collect the global flag names and the names
of every flag set of the resolved command, then report the kept tokens
whose extracted name matches none of them.  The inner linear search is
in `isKnownIn`. -/
def isKnownIn (known : List String) (fn : String) : Bool :=
  match known with
  | [] => false
  | k :: ks => if k == fn then true else isKnownIn ks fn

/-- The known-flag union and the unknown-flag report of `validateFlags`. -/
def validateFlags (reg : Reg) (originalFlags : List String) (c : CmdState) :
    Option String :=
  if originalFlags.isEmpty then none
  else
    let globalNames := match reg.fsHeap.head? with
      | some gfs => flagNames gfs
      | none => []
    let known := globalNames ++ (c.flagSets.map (fun fsi => flagNames (fsAt reg fsi))).flatten
    let unknown := originalFlags.filter (fun f => !isKnownIn known (stripFlagToken f))
    if unknown.isEmpty then none
    else some ("unknown flag(s): " ++ String.intercalate ", " unknown)

/-- Result of `AssignArgs` (`src/cmd_base.go`, lines 187-223): either
the up-front arity failure, or the performed writes (pairs of argument
position and bound token, for definitions with a binding target)
together with the aggregated missing-required-argument messages. -/
inductive ArgsRes where
  | arityErr (required got : Nat)
  | done (writes : List (Nat × String)) (errs : List String)
deriving DecidableEq, Repr

/-- The assignment loop of `AssignArgs`, carrying the current position. -/
def assignLoop (args : List String) : Nat → List ArgDef → List (Nat × String) × List String
  | _, [] => ([], [])
  | i, ad :: ads =>
    if h : i < args.length then
      let r := assignLoop args (i + 1) ads
      (if ad.hasTarget then (i, args.get ⟨i, h⟩) :: r.1 else r.1, r.2)
    else
      let r := assignLoop args (i + 1) ads
      (r.1, (if ad.required then ["required argument " ++ ad.name ++ " missing"] else []) ++ r.2)

/-- `AssignArgs` from `src/cmd_base.go`: count the required
definitions; fail with an arity error when fewer tokens were supplied;
otherwise bind each available token to its definition in declared order
and aggregate a message per missing required definition. -/
def assignArgs (c : CmdState) (args : List String) : ArgsRes :=
  let required := (c.argDefs.filter (·.required)).length
  if args.length < required then .arityErr required args.length
  else
    let r := assignLoop args 0 c.argDefs
    .done r.1 r.2

/-! ### The per-invocation pipeline (`src/cmd_runner.go`, `ParseCmd`) -/

/-- The error taxonomy surfaced by `ParseCmd`; the final wrapping with
`ErrShowUsage` adds context only and is not tracked. -/
inductive ParseErr where
  | unknownCommand
  | commandNotFound (path : String)
  | flagsParsingFailed
  | unknownFlags (msg : String)
  | assigningArgsFailed
deriving DecidableEq, Repr

/-- `ParseCmd` from `src/cmd_runner.go`, lines 40-100: an empty token
list becomes `["help"]`; `ValidateCmds` (which only rejects nil
handlers, unrepresentable in this model) passes; the best path match
and default-command resolution follow; then flag-set parsing, raw-flag
validation against the kept original flags, and argument assignment.
Returns the resolved command (when one was resolved) and the first
error; the outer `none` models a crash during resolution. -/
def parseCmd (reg : Reg) (originalFlags : List String) (args0 : List String) :
    Option (Option Nat × Option ParseErr) :=
  let args1 := if args0.isEmpty then ["help"] else args0
  match findBestCmdMatch reg args1 with
  | none => none
  | some (path, args2) =>
    if path = "" then some (none, some .unknownCommand)
    else
      match getDefaultCommand reg path args2 with
      | none => none
      | some (none, _) => some (none, some (.commandNotFound path))
      | some (some i, _) =>
        let c := cmdAt reg i
        let pr := parseFlagSets reg c args2
        if !pr.2.isEmpty then some (some i, some .flagsParsingFailed)
        else
          match validateFlags reg originalFlags c with
          | some m => some (some i, some (.unknownFlags m))
          | none =>
            match assignArgs c pr.1 with
            | .arityErr _ _ => some (some i, some .assigningArgsFailed)
            | .done _ errs =>
              if !errs.isEmpty then some (some i, some .assigningArgsFailed)
              else some (some i, none)

/-! ### The initial registry -/

/-- The built-in global flag definitions of `src/cli_options.go`
(`verbosity`, `quiet`, `timeout`, `dry-run`, `force`). -/
def builtinGlobalFS : FlagSet :=
  { name := "global"
    flagDefs :=
      [ { name := "verbosity", shortcut := 118, usage := "Verbosity of most command line output (1 to 3, default 1)", hasInt := true }
      , { name := "quiet", shortcut := 113, usage := "Disable display of most command line output", hasBool := true }
      , { name := "timeout", shortcut := 116, usage := "timeout(in seconds)", hasInt := true }
      , { name := "dry-run", usage := "Show what command results will be if command is run", hasBool := true }
      , { name := "force", shortcut := 102, usage := "Force the action even if warnings", hasBool := true } ] }

/-- The registry at process start: the global flag set exists, no
commands are registered. -/
def reg0 : Reg :=
  { fsHeap := [builtinGlobalFS], cmdHeap := [], commands := []
    typeMap := [], pathMap := [], flagCmdMap := [] }

/-! ### Spec-side formulations used to state the claims -/

/-- The dotted path `t1.….tk` of the spec: tokens joined with `"."`. -/
def dotJoin : List String → String
  | [] => ""
  | t :: ts => ts.foldl (fun a b => a ++ "." ++ b) t

/-- The resolution algorithm as the spec words it: try the dotted join
of the first `k` tokens for `k = n, n-1, …, 1`; on the first registered
candidate return it together with the tokens beyond `k`; otherwise
report no match. -/
def specGo (reg : Reg) (args : List String) : Nat → String × List String
  | 0 => ("", args)
  | k + 1 =>
    let p := dotJoin (args.take (k + 1))
    if (lookupA reg.pathMap p).isSome then (p, args.drop (k + 1))
    else specGo reg args k

/-- Longest-prefix resolution per the spec, with `n` the number of
leading non-dash tokens. -/
def specResolve (reg : Reg) (args : List String) : String × List String :=
  specGo reg args (leadCount args)

/-- The candidate accumulation restricted to a dash-free token list
(the lead segment); used to relate the code's candidate construction
to the spec's dotted joins. -/
def scanDots (cur : String) : List String → List String
  | [] => []
  | t :: ts => (cur ++ "." ++ t) :: scanDots (cur ++ "." ++ t) ts

/-- The candidate list as a function of the lead segment only. -/
def ascLead : List String → List String
  | [] => []
  | t :: ts => t :: scanDots t ts

/-- A command record with its child list forgotten: the part of the
per-command state that tree building reads (it only ever appends to
child lists). -/
def shadow (c : CmdState) : CmdState := { c with subCommands := [] }

/-- Two registries that agree on everything tree building reads:
registration list, type index, flag-set heap, and all command fields
except the child lists. -/
def statEq (r r' : Reg) : Prop :=
  r.commands = r'.commands ∧ r.typeMap = r'.typeMap ∧ r.fsHeap = r'.fsHeap ∧
  r.cmdHeap.map shadow = r'.cmdHeap.map shadow

/-- First-occurrence deduplication relative to an already-seen set: the
order in which `ValidateCommands` encounters distinct flag-set
instances. -/
def distinctFS (seen : List Nat) : List Nat → List Nat
  | [] => []
  | x :: xs => if seen.contains x then distinctFS seen xs else x :: distinctFS (x :: seen) xs

/-- All flag-set references made by the registered commands in order. -/
def fsRefs (reg : Reg) : List Nat :=
  reg.commands.flatMap (fun i => (cmdAt reg i).flagSets)

/-- The duplicate-name check as the spec words it: each distinct
flag-set instance is processed exactly once, in first-reference order. -/
def specCheck1 (reg : Reg) : List String :=
  ((distinctFS [] (fsRefs reg)).map (fun fsi => dupScanFS (fsAt reg fsi))).flatten

/-- The known-flag union of raw-flag validation: all global flag names
plus all flag names of the resolved command's own flag sets. -/
def unionNames (reg : Reg) (c : CmdState) : List String :=
  (match reg.fsHeap.head? with
   | some gfs => flagNames gfs
   | none => []) ++ (c.flagSets.map (fun fsi => flagNames (fsAt reg fsi))).flatten

/-- The tokens raw-flag validation reports: the kept tokens whose
extracted flag name is absent from the known-flag union. -/
def reportedUnknown (reg : Reg) (originalFlags : List String) (c : CmdState) : List String :=
  originalFlags.filter (fun f => !isKnownIn (unionNames reg c) (stripFlagToken f))

/-- The number of required argument definitions. -/
def reqCount (c : CmdState) : Nat :=
  (c.argDefs.filter (·.required)).length

/-- The bindings the spec prescribes: the i-th available token bound to
the i-th definition's target, in declared order. -/
def specWrites (c : CmdState) (args : List String) : List (Nat × String) :=
  (c.argDefs.enum.filter (fun p => p.1 < args.length && p.2.hasTarget)).map
    (fun p => (p.1, args.getD p.1 ""))

/-- The aggregate the spec prescribes: one message per required
definition beyond the available tokens; optional ones contribute none. -/
def specMissing (c : CmdState) (args : List String) : List String :=
  (c.argDefs.enum.filter (fun p => decide (args.length ≤ p.1) && p.2.required)).map
    (fun p => "required argument " ++ p.2.name ++ " missing")

/-! ### Concrete registries used by individual claims -/

/-- C1: `a`, `a.b` and `a.b.c` all registered, no delegates. -/
def regC1 : Reg :=
  let r := (registerCommand reg0 { tname := "ACmd", name := "a" } []).1
  let r := (registerCommand r { tname := "ABCmd", name := "b" } ["ACmd"]).1
  let r := (registerCommand r { tname := "ABCCmd", name := "c" } ["ABCmd"]).1
  (buildCommandTree r).1

/-- C2: top-level `a` delegating to its child `b`. -/
def regC2 : Reg :=
  let r := (registerCommand reg0 { tname := "ACmd", name := "a", delegateTo := some "BCmd" } []).1
  let r := (registerCommand r { tname := "BCmd", name := "b" } ["ACmd"]).1
  (buildCommandTree r).1

/-- C3: `p` registered under both `a` and `b`; `c` registered under
`p` — the registry before tree building. -/
def regC3pre : Reg :=
  let r := (registerCommand reg0 { tname := "ACmd", name := "a" } []).1
  let r := (registerCommand r { tname := "BCmd", name := "b" } []).1
  let r := (registerCommand r { tname := "PCmd", name := "p" } ["ACmd", "BCmd"]).1
  (registerCommand r { tname := "CCmd", name := "c" } ["PCmd"]).1

/-- C3: the same registry after tree building. -/
def regC3 : Reg := (buildCommandTree regC3pre).1

/-- C4: `c` declares parents `ACmd` (registered) and `BCmd` (never
registered), in that order. -/
def regC4pre : Reg :=
  let r := (registerCommand reg0 { tname := "ACmd", name := "a" } []).1
  (registerCommand r { tname := "CCmd", name := "c" } ["ACmd", "BCmd"]).1

/-- C4, contrast case: the missing parent is declared first. -/
def regC4bpre : Reg :=
  let r := (registerCommand reg0 { tname := "ACmd", name := "a" } []).1
  (registerCommand r { tname := "CCmd", name := "c" } ["BCmd", "ACmd"]).1

/-- C5: a command triggered by `--serve`. -/
def specServe : CmdSpec := { tname := "ServeCmd", name := "serve", flagName := "serve" }

/-- C5: a second command also triggered by `--serve`. -/
def specServe2 : CmdSpec := { tname := "Serve2Cmd", name := "serve2", flagName := "serve" }

/-- C6: a registry with the `--serve` trigger registered. -/
def regC6 : Reg := (registerCommand reg0 specServe []).1

/-- C8: a base registry owning a second, shareable flag set containing
a duplicated name and an out-of-range shortcut. -/
def regC8base : Reg :=
  { reg0 with
    fsHeap := reg0.fsHeap ++
      [{ name := "shared"
         flagDefs :=
           [ { name := "x", hasString := true, usage := "u" }
           , { name := "x", hasString := true, usage := "u" }
           , { name := "y", shortcut := 200, hasString := true, usage := "u" } ] }] }

/-- C8: two commands sharing flag-set instance 1 by reference. -/
def regC8 : Reg :=
  let r := (registerCommand regC8base { tname := "ACmd", name := "a", flagSets := [1] } []).1
  (registerCommand r { tname := "BCmd", name := "b", flagSets := [1] } []).1

/-- C9: a parent and one child, before tree building. -/
def regC9pre : Reg :=
  let r := (registerCommand reg0 { tname := "ACmd", name := "a" } []).1
  (registerCommand r { tname := "BCmd", name := "b" } ["ACmd"]).1

/-- C10: a registry with a `help` command registered. -/
def regC10 : Reg :=
  let r := (registerCommand reg0 { tname := "HelpCmd", name := "help" } []).1
  (buildCommandTree r).1

/-- The trigger-flag pairs contributed by one pass of the flag-map
loop, in encounter order. -/
def flagPairs (reg : Reg) (l : List Nat) : List (String × Nat) :=
  l.filterMap (fun i =>
    if (cmdAt reg i).flagName = "" then none else some ((cmdAt reg i).flagName, i))

/-! ## Theorems -/

/-- C2: the delegation guards fail in the composed resolver.  With `a`
delegating to its child `b`: `findBestCmdMatch` hands the full token
list (headed by the already-consumed command token `"a"`, which is
never dash-prefixed) to `GetDefaultCommand`, so on input `["a"]` —
zero remaining tokens after the matched path — matching already
redirects to path `"a.b"`, and the pipeline resolves command 1 (`b`),
the delegate; likewise when the single remaining token is the flag
`"--x"`.  `GetDefaultCommand` applied to the matched path with the
actual remaining tokens `[]` would have kept command 0 (`a`), which is
what the claim — and the code's own guards — prescribe. -/
theorem c2_delegation_bug_eval :
    findBestCmdMatch regC2 ["a"] = some ("a.b", []) ∧
    parseCmd regC2 [] ["a"] = some (some 1, none) ∧
    (cmdAt regC2 1).name = "b" ∧
    (cmdAt regC2 0).name = "a" ∧ (cmdAt regC2 0).delegateTo = some "BCmd" ∧
    getDefaultCommand regC2 "a" [] = some (some 0, "a") ∧
    (parseCmd regC2 [] ["a", "--x"]).map (fun r => r.1) = some (some 1) := by
  refine ⟨rfl, rfl, rfl, rfl, rfl, rfl, rfl⟩

/-- C3 counterexample: `p` is known by both dotted paths `a.p` and
`b.p`, yet its child `c` is indexed only under `b.p.c` — the slot for
each parent keeps only the parent's last path — so the claim that the
child is indexed "for every dotted path each of its parents is known
by" fails at path `a.p.c`. -/
theorem c3_counterexample :
    cmdFullNames regC3 (cmdAt regC3 2) = .ok ["a.p", "b.p"] ∧
    cmdFullNames regC3 (cmdAt regC3 3) = .ok ["b.p.c"] ∧
    getExactCommand regC3 "a.p.c" = none ∧
    getExactCommand regC3 "b.p.c" = some 3 := by
  refine ⟨rfl, rfl, rfl, rfl⟩

/-- C4: evaluating the tree builder at the failing input.  When the
child `c` declares parents `(ACmd, BCmd)` with `ACmd` registered and
`BCmd` missing, the builder resolves `ACmd`, then calls the child's
`FullNames`, which dereferences the nil type-map entry for `BCmd`: a
panic (modelled `.crash`), not the "parent not found" error.  When the
missing parent comes first, the proper error naming both the missing
parent and the child is returned. -/
theorem c4_panic_eval :
    (buildCommandTree regC4pre).2 = some .crash ∧
    (buildCommandTree regC4bpre).2 = some (.parentNotFound "BCmd" "c") := by
  refine ⟨rfl, rfl⟩

/-- C6 counterexample: with the `--serve` trigger registered, invoking
`prog --serve x` rewrites the first token to `serve` before the kept
set is computed, so the kept set is empty although the original,
pre-transform input had the dash token `--serve`; a lone `--help` is
likewise removed before the kept set is computed. -/
theorem c6_counterexample :
    parseCLIOptionsKept regC6 ["prog", "--serve", "x"] = [] ∧
    extractFlags ["--serve", "x"] = ["--serve"] ∧
    parseCLIOptionsKept regC6 ["prog", "--help"] = [] ∧
    extractFlags ["--help"] = ["--help"] := by
  refine ⟨rfl, rfl, rfl, rfl⟩

/-- C8 counterexample: flag-set instance 1 is shared by the two
commands `a` and `b`.  Its duplicate-name violation is reported once
(that check deduplicates instances), but its shortcut violation is
reported twice — once per referencing command — so the validation pass
does not process each distinct flag-set instance exactly once. -/
theorem c8_counterexample :
    validateCommands regC8 =
      [ "duplicate FlagDef x in FlagSet shared"
      , "command a: flag y shortcut must be a single ASCII character"
      , "command b: flag y shortcut must be a single ASCII character" ] := by
  rfl

/-- C9 counterexample: running the tree builder twice on an unchanged
registry appends the child to the parent's child list a second time,
so the index contents (which the claim says include each command's
child list) differ between one run and two runs. -/
theorem c9_counterexample :
    (cmdAt (buildCommandTree regC9pre).1 0).subCommands = [1] ∧
    (cmdAt (buildCommandTree (buildCommandTree regC9pre).1).1 0).subCommands = [1, 1] ∧
    (cmdAt (buildCommandTree (buildCommandTree regC9pre).1).1 0).subCommands ≠
      (cmdAt (buildCommandTree regC9pre).1 0).subCommands := by
  refine ⟨rfl, rfl, by decide⟩

/-- The assignment loop of `AssignArgs` computes, position by position,
exactly the spec's writes and missing-required messages. -/
theorem assignLoop_eq (args : List String) :
    ∀ (ads : List ArgDef) (k : Nat),
      assignLoop args k ads =
        (((List.enumFrom k ads).filter
            (fun p => decide (p.1 < args.length) && p.2.hasTarget)).map
            (fun p => (p.1, args.getD p.1 "")),
         ((List.enumFrom k ads).filter
            (fun p => decide (args.length ≤ p.1) && p.2.required)).map
            (fun p => "required argument " ++ p.2.name ++ " missing")) := by
  intro ads
  induction ads with
  | nil => intro k; simp [assignLoop, List.enumFrom]
  | cons ad ads ih =>
    intro k
    by_cases h : k < args.length
    · have hget : args.get ⟨k, h⟩ = args.getD k "" := by
        simp [List.getD_eq_getElem?_getD, List.getElem?_eq_getElem h]
      simp only [assignLoop, dif_pos h, ih (k + 1), List.enumFrom]
      have hle : ¬ args.length ≤ k := not_le.mpr h
      by_cases ht : ad.hasTarget <;>
        simp [List.filter, h, hle, ht, hget]
    · have hle : args.length ≤ k := not_lt.mp h
      simp only [assignLoop, dif_neg h, ih (k + 1), List.enumFrom]
      by_cases hr : ad.required <;>
        simp [List.filter, h, hle, hr]

/-- C7: positional argument assignment.  When fewer tokens are
supplied than there are required definitions, assignment fails
immediately with the arity error and binds nothing; otherwise the i-th
available token is bound to the i-th definition's target in declared
order, each required definition beyond the available tokens
contributes one missing-argument message to the aggregate, and
optional definitions beyond the tokens contribute none. -/
theorem c7_assign (c : CmdState) (args : List String) :
    (args.length < reqCount c → assignArgs c args = .arityErr (reqCount c) args.length) ∧
    (reqCount c ≤ args.length →
      assignArgs c args = .done (specWrites c args) (specMissing c args)) := by
  constructor
  · intro h
    unfold reqCount at h
    unfold assignArgs
    rw [if_pos h]
    rfl
  · intro h
    have hnl : ¬ args.length < (c.argDefs.filter (·.required)).length := not_lt.mpr h
    simp only [assignArgs, if_neg hnl, specWrites, specMissing, List.enum,
      assignLoop_eq args c.argDefs 0]

/-- C7 witness: one optional definition with a target followed by one
required definition, against a single token: the token binds at
position 0 and the required definition reports one missing-argument
message (and no arity error fires). -/
theorem c7_assign_witness :
    assignArgs
        { tname := "TCmd", name := "t"
          argDefs :=
            [ { name := "src", required := false, hasTarget := true }
            , { name := "dst", required := true, hasTarget := true } ] }
        ["x"] =
      .done [(0, "x")] ["required argument dst missing"] := by
  have h := (c7_assign
    { tname := "TCmd", name := "t"
      argDefs :=
        [ { name := "src", required := false, hasTarget := true }
        , { name := "dst", required := true, hasTarget := true } ] }
    ["x"]).2 (by decide)
  exact h.trans (by decide)

/-- C10: an empty token list is replaced by `["help"]` before
resolution, so `ParseCmd` on no arguments behaves exactly like
`ParseCmd ["help"]`: it resolves the command registered under path
`"help"` when there is one (with no delegate declared on it), and
fails with the unknown-command error precisely when no such command is
registered — never merely because the input was empty. -/
theorem c10_empty_args (reg : Reg) (ofl : List String) :
    parseCmd reg ofl [] = parseCmd reg ofl ["help"] ∧
    (getExactCommand reg "help" = none →
      parseCmd reg ofl [] = some (none, some .unknownCommand)) ∧
    (∀ i, getExactCommand reg "help" = some i → (cmdAt reg i).delegateTo = none →
      ∃ e, parseCmd reg ofl [] = some (some i, e)) := by
  have hfb : findBestCmdMatch reg ["help"] = fbcmLoop reg ["help"] 1 ["help"] := rfl
  refine ⟨rfl, ?_, ?_⟩
  · intro hl
    unfold getExactCommand at hl
    show (match findBestCmdMatch reg ["help"] with
          | none => none
          | some (path, args2) =>
            if path = "" then some (none, some ParseErr.unknownCommand) else _) = _
    rw [hfb]
    unfold fbcmLoop getDefaultCommand
    rw [hl]
    rfl
  · intro i hl hdel
    unfold getExactCommand at hl
    have hgdc : getDefaultCommand reg "help" ["help"] = some (some i, "help") := by
      simp only [getDefaultCommand, hl, hdel]
    have hgdc2 : getDefaultCommand reg "help" [] = some (some i, "help") := by
      simp only [getDefaultCommand, hl, hdel]
    have hfb2 : findBestCmdMatch reg ["help"] = some ("help", []) := by
      rw [hfb]
      unfold fbcmLoop
      rw [hgdc]
      rfl
    have hstage : parseCmd reg ofl [] =
        (if !(parseFlagSets reg (cmdAt reg i) []).2.isEmpty then
           some (some i, some ParseErr.flagsParsingFailed)
         else match validateFlags reg ofl (cmdAt reg i) with
           | some m => some (some i, some (ParseErr.unknownFlags m))
           | none =>
             match assignArgs (cmdAt reg i) (parseFlagSets reg (cmdAt reg i) []).1 with
             | .arityErr _ _ => some (some i, some ParseErr.assigningArgsFailed)
             | .done _ errs =>
               if !errs.isEmpty then some (some i, some ParseErr.assigningArgsFailed)
               else some (some i, none)) := by
      show (match findBestCmdMatch reg ["help"] with
            | none => none
            | some (path, args2) =>
              if path = "" then some (none, some ParseErr.unknownCommand)
              else match getDefaultCommand reg path args2 with
                | none => none
                | some (none, _) => some (none, some (ParseErr.commandNotFound path))
                | some (some i, _) =>
                  let c := cmdAt reg i
                  let pr := parseFlagSets reg c args2
                  if !pr.2.isEmpty then some (some i, some ParseErr.flagsParsingFailed)
                  else match validateFlags reg ofl c with
                    | some m => some (some i, some (ParseErr.unknownFlags m))
                    | none =>
                      match assignArgs c pr.1 with
                      | .arityErr _ _ => some (some i, some ParseErr.assigningArgsFailed)
                      | .done _ errs =>
                        if !errs.isEmpty then some (some i, some ParseErr.assigningArgsFailed)
                        else some (some i, none)) = _
      rw [hfb2]
      show (match getDefaultCommand reg "help" [] with
            | none => none
            | some (none, _) => some (none, some (ParseErr.commandNotFound "help"))
            | some (some i, _) =>
              let c := cmdAt reg i
              let pr := parseFlagSets reg c []
              if !pr.2.isEmpty then some (some i, some ParseErr.flagsParsingFailed)
              else match validateFlags reg ofl c with
                | some m => some (some i, some (ParseErr.unknownFlags m))
                | none =>
                  match assignArgs c pr.1 with
                  | .arityErr _ _ => some (some i, some ParseErr.assigningArgsFailed)
                  | .done _ errs =>
                    if !errs.isEmpty then some (some i, some ParseErr.assigningArgsFailed)
                    else some (some i, none)) = _
      rw [hgdc2]
    rw [hstage]
    by_cases h1 : (parseFlagSets reg (cmdAt reg i) []).2.isEmpty
    · simp only [h1, Bool.not_true, Bool.false_eq_true, if_false]
      cases hv : validateFlags reg ofl (cmdAt reg i) with
      | some m => exact ⟨some (.unknownFlags m), rfl⟩
      | none =>
        cases ha : assignArgs (cmdAt reg i) (parseFlagSets reg (cmdAt reg i) []).1 with
        | arityErr r g => exact ⟨some .assigningArgsFailed, rfl⟩
        | done w errs =>
          by_cases h2 : errs.isEmpty
          · exact ⟨none, by simp [h2]⟩
          · exact ⟨some .assigningArgsFailed, by simp [h2]⟩
    · exact ⟨some .flagsParsingFailed, by simp [h1]⟩

/-- C10 witness: with a `help` command registered (and nothing else),
`ParseCmd` on an empty argument list resolves it. -/
theorem c10_empty_args_witness :
    ∃ e, parseCmd regC10 [] [] = some (some 0, e) := by
  exact (c10_empty_args regC10 []).2.2 0 (by decide) (by decide)

/-- Setting then reading the same valid index of a list. -/
theorem getD_set_self {α : Type} (l : List α) (i : Nat) (x d : α)
    (h : i < l.length) : (l.set i x).getD i d = x := by
  induction l generalizing i with
  | nil => simp at h
  | cons a as ih =>
    cases i with
    | zero => rfl
    | succ n =>
      simp only [List.set, List.getD, List.length_cons] at *
      exact ih n (Nat.lt_of_succ_lt_succ h)

/-- The auto-generated usage `"Run " ++ name ++ " command"` survives
`strings.TrimSpace` non-empty, whatever the command name. -/
theorem trimSpace_run_ne (s : String) :
    trimSpace ("Run " ++ s ++ " command") ≠ "" := by
  intro h
  have hd := congrArg String.data h
  simp only [trimSpace] at hd
  have hdata : ("Run " ++ s ++ " command").data =
      'R' :: ("un ".data ++ s.data ++ " command".data) := by
    simp [String.data_append]
  rw [hdata] at hd
  rw [List.dropWhile_cons_of_neg (by decide)] at hd
  have hmem : 'R' ∈ ('R' :: ("un ".data ++ s.data ++ " command".data)).reverse := by
    simp
  have hnil : (('R' :: ("un ".data ++ s.data ++ " command".data)).reverse.dropWhile
      Char.isWhitespace).reverse = ([] : List Char) := hd
  rw [List.reverse_eq_nil_iff, List.dropWhile_eq_nil_iff] at hnil
  have := hnil _ hmem
  simp at this

/-- `AddCLIOption` on a definition passing every check: the definition
is appended to the global flag set and no error is returned. -/
theorem addCLIOption_fresh (reg : Reg) (fd : FlagDef)
    (h1 : fd.name ≠ "") (h2 : flagNameOk fd.name = true)
    (h3 : (fsAt reg 0).flagDefs.any (fun ex => ex.name == fd.name) = false)
    (h4 : (if fd.hasString then 1 else 0) + (if fd.hasBool then 1 else 0) +
          (if fd.hasInt then 1 else 0) + (if fd.hasInt64 then 1 else 0) = 1)
    (h5 : trimSpace fd.usage ≠ "") :
    addCLIOption reg fd =
      ({ reg with fsHeap := reg.fsHeap.set 0 { fsAt reg 0 with flagDefs := (fsAt reg 0).flagDefs ++ [fd] } }, []) := by
  unfold addCLIOption
  simp [h1, h2, h3, h4, h5]

/-- `AddCLIOption` on a definition whose name duplicates a global flag
always errors (and therefore appends nothing). -/
theorem addCLIOption_dup (reg : Reg) (fd : FlagDef)
    (h3 : (fsAt reg 0).flagDefs.any (fun ex => ex.name == fd.name) = true) :
    (addCLIOption reg fd).2 ≠ [] := by
  unfold addCLIOption
  dsimp only
  have hmem : "duplicate flag in global flags" ∈
      ((if fd.name = "" then ["empty Name"]
        else if !flagNameOk fd.name then
          ["invalid flag name: may contain only lowercase letters, numbers, and dashes"]
        else []) ++
       (if (fsAt reg 0).flagDefs.any (fun ex => ex.name == fd.name) then
          ["duplicate flag in global flags"] else []) ++
       (if (if fd.hasString then 1 else 0) + (if fd.hasBool then 1 else 0) +
           (if fd.hasInt then 1 else 0) + (if fd.hasInt64 then 1 else 0) = 1 then []
        else ["flag type is not discoverable: exactly one of .String, .Bool, .Int, .Int64 must be non-nil"]) ++
       (if trimSpace fd.usage = "" then ["empty Usage"] else [])) := by
    simp [h3]
  by_cases hbe : ((if fd.name = "" then ["empty Name"]
        else if !flagNameOk fd.name then
          ["invalid flag name: may contain only lowercase letters, numbers, and dashes"]
        else []) ++
       (if (fsAt reg 0).flagDefs.any (fun ex => ex.name == fd.name) then
          ["duplicate flag in global flags"] else []) ++
       (if (if fd.hasString then 1 else 0) + (if fd.hasBool then 1 else 0) +
           (if fd.hasInt then 1 else 0) + (if fd.hasInt64 then 1 else 0) = 1 then []
        else ["flag type is not discoverable: exactly one of .String, .Bool, .Int, .Int64 must be non-nil"]) ++
       (if trimSpace fd.usage = "" then ["empty Usage"] else [])).isEmpty
  · exfalso
    rw [List.isEmpty_iff] at hbe
    rw [hbe] at hmem
    simp at hmem
  · rw [if_neg hbe]
    exact List.ne_nil_of_mem hmem


/-- C5: trigger flag-names auto-create a boolean global flag, and a
collision with an existing global flag makes registration fail.  For
any registry with the global flag set in place and any command spec
declaring a well-formed trigger flag-name: when no global flag of that
name exists, registration succeeds and appends the boolean flag of
that name to the global set; when one exists, registration returns a
non-empty error.  The last two conjuncts instantiate this to two
top-level commands both declaring trigger `serve`: the first
registration succeeds, the second fails at registration time (no
resolution is involved). -/
theorem c5_trigger_flag (reg : Reg) (spec : CmdSpec) (parents : List String)
    (hg : 0 < reg.fsHeap.length)
    (hfn : spec.flagName ≠ "") (hok : flagNameOk spec.flagName = true) :
    ((∀ fd ∈ (fsAt reg 0).flagDefs, fd.name ≠ spec.flagName) →
      (registerCommand reg spec parents).2 = [] ∧
      (fsAt (registerCommand reg spec parents).1 0).flagDefs =
        (fsAt reg 0).flagDefs ++ [{ name := spec.flagName, usage := "Run " ++ spec.name ++ " command", hasBool := true }]) ∧
    ((∃ fd ∈ (fsAt reg 0).flagDefs, fd.name = spec.flagName) →
      (registerCommand reg spec parents).2 ≠ []) ∧
    (registerCommand reg0 specServe []).2 = [] ∧
    (registerCommand (registerCommand reg0 specServe []).1 specServe2 []).2 ≠ [] := by
  have hfs2 : ∀ (ch : List CmdState) (co : List Nat) (tm : List (String × Nat)),
      fsAt { reg with cmdHeap := ch, commands := co, typeMap := tm } 0 = fsAt reg 0 := by
    intro ch co tm
    simp [fsAt]
  refine ⟨?_, ?_, rfl, by decide⟩
  · intro hfresh
    have hany : ((fsAt reg 0).flagDefs.any (fun ex => ex.name == spec.flagName)) = false := by
      rw [List.any_eq_false]
      intro fd hm
      simpa using hfresh fd hm
    have hfilter : ((fsAt reg 0).flagDefs.filter (fun fd => fd.name == spec.flagName)) = [] := by
      rw [List.filter_eq_nil_iff]
      intro fd hm
      simpa using hfresh fd hm
    unfold registerCommand
    rw [if_neg hfn]
    dsimp only
    rw [hfs2, hfilter, addCLIOption_fresh _
      { name := spec.flagName, usage := "Run " ++ spec.name ++ " command", hasBool := true }
      hfn hok (by rw [hfs2]; exact hany) rfl (trimSpace_run_ne spec.name)]
    refine ⟨by simp, ?_⟩
    simp only [fsAt, hfs2]
    rw [getD_set_self _ 0 _ _ (by simpa using hg)]
  · intro ⟨fd, hm, hname⟩
    have hany : ((fsAt reg 0).flagDefs.any (fun ex => ex.name == spec.flagName)) = true := by
      rw [List.any_eq_true]
      exact ⟨fd, hm, by simp [hname]⟩
    unfold registerCommand
    rw [if_neg hfn]
    dsimp only
    intro hnil
    rw [List.append_eq_nil] at hnil
    exact addCLIOption_dup _ _ (by rw [hfs2]; exact hany) hnil.2


/-- C5 witness: registering the `serve` trigger on the pristine
registry succeeds and appends the boolean `serve` flag to the global
flag set. -/
theorem c5_trigger_flag_witness :
    (registerCommand reg0 specServe []).2 = [] ∧
    (fsAt (registerCommand reg0 specServe []).1 0).flagDefs =
      (fsAt reg0 0).flagDefs ++ [{ name := specServe.flagName, usage := "Run " ++ specServe.name ++ " command", hasBool := true }] :=
  (c5_trigger_flag reg0 specServe [] (by decide) (by decide) (by decide)).1 (by decide)


/-- The linear known-flag search of `validateFlags` is list membership. -/
theorem isKnownIn_iff (fn : String) : ∀ (ks : List String),
    isKnownIn ks fn = true ↔ fn ∈ ks := by
  intro ks
  induction ks with
  | nil => simp [isKnownIn]
  | cons k ks ih =>
    simp only [isKnownIn]
    by_cases h : k = fn
    · subst h; simp
    · have hb : (k == fn) = false := by simpa using h
      rw [hb]
      simp only [Bool.false_eq_true, if_false, ih, List.mem_cons]
      constructor
      · exact fun hm => Or.inr hm
      · rintro (rfl | hm)
        · exact absurd rfl h
        · exact hm

/-- C6 amended: (i) when the flag-routing transform does not fire and
no `--help`-prefixed token is present, the kept set is exactly the
dash-prefixed tokens of the original (program-name-stripped) input —
in general it is computed only after those two rewrites (see the
counterexample); (ii) raw-flag validation reports exactly the kept
tokens whose flag name (after stripping dashes and any `=value`
suffix) is absent from the union of the global flag names and the
resolved command's own flag-set names, and no kept token whose name is
in that union. -/
theorem c6_kept_and_validation (reg : Reg) (osArgs ofl : List String) (c : CmdState) :
    (transformFlagCommands reg (osArgs.drop 1) = osArgs.drop 1 →
     (∀ t ∈ osArgs.drop 1, strHasPre t "--help" = false) →
     parseCLIOptionsKept reg osArgs = extractFlags (osArgs.drop 1)) ∧
    (validateFlags reg ofl c =
      if (reportedUnknown reg ofl c).isEmpty then none
      else some ("unknown flag(s): " ++ String.intercalate ", " (reportedUnknown reg ofl c))) ∧
    (∀ f, f ∈ reportedUnknown reg ofl c ↔
      f ∈ ofl ∧ stripFlagToken f ∉ unionNames reg c) := by
  refine ⟨?_, ?_, ?_⟩
  · intro htr hhelp
    unfold parseCLIOptionsKept
    dsimp only
    rw [htr]
    have hfind : (osArgs.drop 1).findIdx? (fun a => strHasPre a "--help") = none := by
      rw [List.findIdx?_eq_none_iff]
      exact hhelp
    unfold containsHelpFlag
    rw [hfind]
    rfl
  · by_cases hofl : ofl.isEmpty
    · rw [List.isEmpty_iff] at hofl
      subst hofl
      simp [validateFlags, reportedUnknown]
    · unfold validateFlags
      rw [if_neg (by simpa using hofl)]
      rfl
  · intro f
    unfold reportedUnknown
    rw [List.mem_filter]
    constructor
    · intro ⟨h1, h2⟩
      refine ⟨h1, ?_⟩
      intro hmem
      have h2f : isKnownIn (unionNames reg c) (stripFlagToken f) = false := by
        simpa using h2
      rw [(isKnownIn_iff (stripFlagToken f) (unionNames reg c)).2 hmem] at h2f
      cases h2f
    · intro ⟨h1, h2⟩
      refine ⟨h1, ?_⟩
      have : isKnownIn (unionNames reg c) (stripFlagToken f) = false := by
        rw [← Bool.not_eq_true, isKnownIn_iff]
        exact h2
      simp [this]


/-- C6 witness: with the `serve`-trigger registry, the input
`prog x --bogus` fires neither the routing transform nor the help
rewrite, so the kept set is the dash tokens of the original input. -/
theorem c6_kept_and_validation_witness :
    parseCLIOptionsKept regC6 ["prog", "x", "--bogus"] = extractFlags ["x", "--bogus"] :=
  (c6_kept_and_validation regC6 ["prog", "x", "--bogus"] [] default).1 (by decide) (by decide)


/-- Splitting first-occurrence dedup over an append. -/
theorem distinctFS_append (b : List Nat) : ∀ (a seen : List Nat),
    distinctFS seen (a ++ b) =
      distinctFS seen a ++ distinctFS ((distinctFS seen a).reverse ++ seen) b := by
  intro a
  induction a with
  | nil => intro seen; simp [distinctFS]
  | cons x xs ih =>
    intro seen
    rw [List.cons_append]
    by_cases h : seen.contains x
    · simp only [distinctFS, h, if_true]
      exact ih seen
    · simp only [distinctFS, h, Bool.false_eq_true, if_false]
      rw [ih (x :: seen)]
      simp [List.reverse_cons, List.append_assoc]

/-- Membership in the first-occurrence dedup. -/
theorem distinctFS_mem (x : Nat) : ∀ (l seen : List Nat),
    x ∈ distinctFS seen l ↔ x ∈ l ∧ seen.contains x = false := by
  intro l
  induction l with
  | nil => intro seen; simp [distinctFS]
  | cons y ys ih =>
    intro seen
    by_cases h : seen.contains y
    · simp only [distinctFS, h, if_true, ih seen, List.mem_cons]
      constructor
      · exact fun ⟨hm, hc⟩ => ⟨Or.inr hm, hc⟩
      · rintro ⟨rfl | hm, hc⟩
        · rw [h] at hc; cases hc
        · exact ⟨hm, hc⟩
    · simp only [distinctFS, h, Bool.false_eq_true, if_false, List.mem_cons, ih (y :: seen)]
      rw [Bool.not_eq_true] at h
      by_cases hxy : x = y
      · subst hxy
        have hns : x ∉ seen := by simpa using h
        simp [hns]
      · simp only [hxy, false_or]
        have hcc : (y :: seen).contains x = seen.contains x := by
          simp only [List.contains_cons]
          have hyx : (x == y) = false := by simpa using hxy
          rw [hyx, Bool.false_or]
        rw [hcc]

/-- The first-occurrence dedup has no duplicates. -/
theorem distinctFS_nodup : ∀ (l seen : List Nat), (distinctFS seen l).Nodup := by
  intro l
  induction l with
  | nil => intro seen; simp [distinctFS]
  | cons y ys ih =>
    intro seen
    by_cases h : seen.contains y
    · simp only [distinctFS, h, if_true]
      exact ih seen
    · simp only [distinctFS, h, Bool.false_eq_true, if_false, List.nodup_cons]
      refine ⟨?_, ih (y :: seen)⟩
      intro hm
      rw [distinctFS_mem] at hm
      simp [List.contains_cons] at hm

/-- The inner flag-set walk of check 1 produces the duplicate scans of
the newly seen instances, in order, and records them as seen. -/
theorem check1FS_eq (reg : Reg) : ∀ (fss seen : List Nat),
    check1FS reg seen fss =
      (((distinctFS seen fss).map (fun fsi => dupScanFS (fsAt reg fsi))).flatten,
       (distinctFS seen fss).reverse ++ seen) := by
  intro fss
  induction fss with
  | nil => intro seen; simp [check1FS, distinctFS]
  | cons fsi rest ih =>
    intro seen
    by_cases h : seen.contains fsi
    · simp only [check1FS, distinctFS, h, if_true, ih seen]
    · simp only [check1FS, distinctFS, h, Bool.false_eq_true, if_false, ih (fsi :: seen),
        List.map_cons, List.flatten_cons, List.reverse_cons, List.append_assoc,
        List.singleton_append]

/-- Check 1 equals the spec-side once-per-distinct-instance scan. -/
theorem check1Cmds_eq (reg : Reg) : ∀ (l seen : List Nat),
    check1Cmds reg seen l =
      ((distinctFS seen (l.flatMap (fun i => (cmdAt reg i).flagSets))).map
        (fun fsi => dupScanFS (fsAt reg fsi))).flatten := by
  intro l
  induction l with
  | nil => intro seen; simp [check1Cmds, distinctFS]
  | cons i is ih =>
    intro seen
    simp only [check1Cmds, check1FS_eq reg, List.flatMap_cons, distinctFS_append,
      List.map_append, List.flatten_append, ih]

/-- C8 amended: the duplicate-name check (check 1) processes each
distinct flag-set instance exactly once — the processed list is the
first-occurrence dedup of all references, covering every referenced
instance with no repetition — while the shortcut check (check 2)
iterates per command reference with no dedup, so a shortcut violation
in a flag set shared by k commands is reported k times (see the
counterexample). -/
theorem c8_validation_dedup (reg : Reg) :
    validateCommands reg = specCheck1 reg ++ check2Cmds reg ++ check3Cmds reg ∧
    (distinctFS [] (fsRefs reg)).Nodup ∧
    (∀ x, x ∈ distinctFS [] (fsRefs reg) ↔ x ∈ fsRefs reg) := by
  refine ⟨?_, distinctFS_nodup _ _, ?_⟩
  · unfold validateCommands specCheck1 fsRefs
    rw [check1Cmds_eq]
  · intro x
    rw [distinctFS_mem]
    simp


/-! ### Tree-building infrastructure: what the builder reads is
invariant under child-list growth -/

/-- Shadows commute with heap reads. -/
theorem shadow_getD (l : List CmdState) : ∀ (i : Nat),
    shadow (l.getD i default) = (l.map shadow).getD i (shadow default) := by
  induction l with
  | nil => intro i; rfl
  | cons a as ih =>
    intro i
    cases i with
    | zero => rfl
    | succ n => exact ih n

/-- Two stat-equal registries dereference shadow-equal commands. -/
theorem cmdAt_shadow_eq (r r' : Reg) (h : r.cmdHeap.map shadow = r'.cmdHeap.map shadow)
    (i : Nat) : shadow (cmdAt r i) = shadow (cmdAt r' i) := by
  unfold cmdAt
  rw [shadow_getD, shadow_getD, h]

theorem statEq_refl (r : Reg) : statEq r r := ⟨rfl, rfl, rfl, rfl⟩

theorem statEq_symm {r r' : Reg} (h : statEq r r') : statEq r' r :=
  ⟨h.1.symm, h.2.1.symm, h.2.2.1.symm, h.2.2.2.symm⟩

theorem statEq_trans {r r' r'' : Reg} (h : statEq r r') (h2 : statEq r' r'') : statEq r r'' :=
  ⟨h.1.trans h2.1, h.2.1.trans h2.2.1, h.2.2.1.trans h2.2.2.1, h.2.2.2.trans h2.2.2.2⟩

/-- `FullNamesAux` only reads the type map and command shadows. -/
theorem fullNamesAux_congr (r r' : Reg) (h : statEq r r')
    (fn fn' : CmdState → FNRes)
    (hfn : ∀ c c', shadow c = shadow c' → fn c = fn' c') (cname : String) :
    ∀ ts, fullNamesAux r fn cname ts = fullNamesAux r' fn' cname ts := by
  intro ts
  induction ts with
  | nil => rfl
  | cons t ts ih =>
    simp only [fullNamesAux]
    rw [← h.2.1]
    cases hl : lookupA r.typeMap t with
    | none => simp
    | some pidx =>
      simp only []
      rw [hfn (cmdAt r pidx) (cmdAt r' pidx) (cmdAt_shadow_eq r r' h.2.2.2 pidx), ih]

/-- `FullNames` only reads the type map and command shadows. -/
theorem fullNames_congr : ∀ (fuel : Nat) (r r' : Reg), statEq r r' →
    ∀ (c c' : CmdState), shadow c = shadow c' →
      fullNames r fuel c = fullNames r' fuel c' := by
  intro fuel
  induction fuel with
  | zero => intro r r' h c c' hc; rfl
  | succ fuel ih =>
    intro r r' h c c' hc
    have hpt : c.parentTypes = c'.parentTypes := by
      have h2 := congrArg CmdState.parentTypes hc
      simpa [shadow] using h2
    have hnm : c.name = c'.name := by
      have h2 := congrArg CmdState.name hc
      simpa [shadow] using h2
    unfold fullNames
    rw [hpt, hnm]
    by_cases he : c'.parentTypes.isEmpty
    · rw [if_pos he, if_pos he]
    · rw [if_neg he, if_neg he]
      exact fullNamesAux_congr r r' h _ _ (fun a a' ha => ih r r' h a a' ha) c'.name c'.parentTypes

/-- `cmdFullNames` only reads the type map and command shadows. -/
theorem cmdFullNames_congr (r r' : Reg) (h : statEq r r') (c c' : CmdState)
    (hc : shadow c = shadow c') : cmdFullNames r c = cmdFullNames r' c' := by
  unfold cmdFullNames fnFuel
  have hlen : r.cmdHeap.length = r'.cmdHeap.length := by
    have := congrArg List.length h.2.2.2
    simpa using this
  rw [hlen]
  exact fullNames_congr _ r r' h c c' hc

/-- Setting an entry to its own current value is the identity. -/
theorem set_getD_self : ∀ (l : List CmdState) (i : Nat),
    l.set i (l.getD i default) = l := by
  intro l
  induction l with
  | nil => intro i; rfl
  | cons a as ih =>
    intro i
    cases i with
    | zero => rfl
    | succ n => simp only [List.set, List.getD_cons_succ, ih n]

/-- Appending a child leaves every command shadow unchanged. -/
theorem addSubCmd_shadow (h : List CmdState) (pidx cidx : Nat) :
    (addSubCmd h pidx cidx).map shadow = h.map shadow := by
  unfold addSubCmd
  rw [List.map_set]
  have hsh : shadow { h.getD pidx default with
      subCommands := (h.getD pidx default).subCommands ++ [cidx] } =
      shadow (h.getD pidx default) := rfl
  rw [hsh, shadow_getD]
  have hd : shadow (default : CmdState) = default := rfl
  rw [hd]
  exact set_getD_self (h.map shadow) pidx



@[simp] theorem optCase_none {α β : Type} (e : β) (f : α → β) :
    optCase none e f = e := rfl

@[simp] theorem optCase_some {α β : Type} (a : α) (e : β) (f : α → β) :
    optCase (some a) e f = f a := rfl

@[simp] theorem fnCase_ok {β : Type} (ns : List String) (f : List String → β) (e : β) :
    fnCase (.ok ns) f e = f ns := rfl

@[simp] theorem fnCase_nilDeref {β : Type} (f : List String → β) (e : β) :
    fnCase .nilDeref f e = e := rfl

@[simp] theorem fnCase_fuelOut {β : Type} (f : List String → β) (e : β) :
    fnCase .fuelOut f e = e := rfl

/-- Indexing under a list of names prepends the reversed pairs. -/
theorem insertAll_eq (cidx : Nat) : ∀ (fns : List String) (m : List (String × Nat)),
    insertAll fns cidx m = (fns.map (fun fn => (fn, cidx))).reverse ++ m := by
  intro fns
  induction fns with
  | nil => intro m; simp [insertAll]
  | cons fn fns ih =>
    intro m
    simp only [insertAll, List.foldl_cons] at *
    rw [ih ((fn, cidx) :: m)]
    simp [List.append_assoc]

theorem addSubReg_statEq (reg : Reg) (pidx cidx : Nat) :
    statEq (addSubReg reg pidx cidx) reg :=
  ⟨rfl, rfl, rfl, addSubCmd_shadow reg.cmdHeap pidx cidx⟩

theorem insertPaths_statEq (reg : Reg) (fns : List String) (cidx : Nat) :
    statEq (insertPaths reg fns cidx) reg :=
  ⟨rfl, rfl, rfl, rfl⟩

/-- The per-parent pass of tree building: on stat-equal registries it
produces the same error, preserves everything the builder reads, never
touches the trigger-flag map, and prepends the same path pairs. -/
theorem buildParents_sim : ∀ (ts : List String) (r r' : Reg) (cidx : Nat),
    statEq r r' →
    (buildParents r cidx ts).2 = (buildParents r' cidx ts).2 ∧
    statEq (buildParents r cidx ts).1 r ∧
    statEq (buildParents r' cidx ts).1 r' ∧
    (buildParents r cidx ts).1.flagCmdMap = r.flagCmdMap ∧
    (buildParents r' cidx ts).1.flagCmdMap = r'.flagCmdMap ∧
    ∃ P, (buildParents r cidx ts).1.pathMap = P ++ r.pathMap ∧
         (buildParents r' cidx ts).1.pathMap = P ++ r'.pathMap := by
  intro ts
  induction ts with
  | nil =>
    intro r r' cidx h
    exact ⟨rfl, statEq_refl r, statEq_refl r', rfl, rfl, ⟨[], rfl, rfl⟩⟩
  | cons t ts ih =>
    intro r r' cidx h
    have hnm : (cmdAt r cidx).name = (cmdAt r' cidx).name := by
      have h2 := congrArg CmdState.name (cmdAt_shadow_eq r r' h.2.2.2 cidx)
      simpa [shadow] using h2
    have hl' : lookupA r'.typeMap t = lookupA r.typeMap t := by rw [h.2.1]
    cases hl : lookupA r.typeMap t with
    | none =>
      have key : buildParents r cidx (t :: ts) =
          (r, some (.parentNotFound t (cmdAt r cidx).name)) := by
        simp only [buildParents, hl, optCase_none]
      have key2 : buildParents r' cidx (t :: ts) =
          (r', some (.parentNotFound t (cmdAt r' cidx).name)) := by
        simp only [buildParents, hl', hl, optCase_none]
      rw [key, key2]
      exact ⟨by rw [hnm], statEq_refl r, statEq_refl r', rfl, rfl, ⟨[], rfl, rfl⟩⟩
    | some pidx =>
      have hsEq : statEq (addSubReg r pidx cidx) (addSubReg r' pidx cidx) :=
        statEq_trans (statEq_trans (addSubReg_statEq r pidx cidx) h)
          (statEq_symm (addSubReg_statEq r' pidx cidx))
      have hfn : cmdFullNames (addSubReg r' pidx cidx) (cmdAt (addSubReg r' pidx cidx) cidx) =
          cmdFullNames (addSubReg r pidx cidx) (cmdAt (addSubReg r pidx cidx) cidx) :=
        cmdFullNames_congr _ _ (statEq_symm hsEq) _ _
          (cmdAt_shadow_eq _ _ (statEq_symm hsEq).2.2.2 cidx)
      have key : buildParents r cidx (t :: ts) =
          fnCase (cmdFullNames (addSubReg r pidx cidx) (cmdAt (addSubReg r pidx cidx) cidx))
            (fun fns => buildParents (insertPaths (addSubReg r pidx cidx) fns cidx) cidx ts)
            (addSubReg r pidx cidx, some .crash) := by
        simp only [buildParents, hl, optCase_some]
      have key2 : buildParents r' cidx (t :: ts) =
          fnCase (cmdFullNames (addSubReg r' pidx cidx) (cmdAt (addSubReg r' pidx cidx) cidx))
            (fun fns => buildParents (insertPaths (addSubReg r' pidx cidx) fns cidx) cidx ts)
            (addSubReg r' pidx cidx, some .crash) := by
        simp only [buildParents, hl', hl, optCase_some]
      rw [key, key2, hfn]
      cases hfns : cmdFullNames (addSubReg r pidx cidx) (cmdAt (addSubReg r pidx cidx) cidx) with
      | ok fns =>
        obtain ⟨he, hsa, hsb, hfa, hfb, P, hpa, hpb⟩ :=
          ih (insertPaths (addSubReg r pidx cidx) fns cidx)
             (insertPaths (addSubReg r' pidx cidx) fns cidx) cidx
             (statEq_trans (statEq_trans (insertPaths_statEq _ fns cidx) hsEq)
               (statEq_symm (insertPaths_statEq _ fns cidx)))
        refine ⟨he,
          statEq_trans hsa (statEq_trans (insertPaths_statEq _ fns cidx)
            (addSubReg_statEq r pidx cidx)),
          statEq_trans hsb (statEq_trans (insertPaths_statEq _ fns cidx)
            (addSubReg_statEq r' pidx cidx)),
          hfa, hfb, ⟨P ++ (fns.map (fun fn => (fn, cidx))).reverse, ?_, ?_⟩⟩
        · rw [show (fnCase (FNRes.ok fns)
              (fun fns => buildParents (insertPaths (addSubReg r pidx cidx) fns cidx) cidx ts)
              (addSubReg r pidx cidx, some .crash)) =
              buildParents (insertPaths (addSubReg r pidx cidx) fns cidx) cidx ts from rfl]
          rw [hpa]
          show P ++ insertAll fns cidx r.pathMap = _
          rw [insertAll_eq, List.append_assoc]
        · rw [show (fnCase (FNRes.ok fns)
              (fun fns => buildParents (insertPaths (addSubReg r' pidx cidx) fns cidx) cidx ts)
              (addSubReg r' pidx cidx, some .crash)) =
              buildParents (insertPaths (addSubReg r' pidx cidx) fns cidx) cidx ts from rfl]
          rw [hpb]
          show P ++ insertAll fns cidx r'.pathMap = _
          rw [insertAll_eq, List.append_assoc]
      | nilDeref =>
        exact ⟨rfl, addSubReg_statEq r pidx cidx, addSubReg_statEq r' pidx cidx,
          rfl, rfl, ⟨[], rfl, rfl⟩⟩
      | fuelOut =>
        exact ⟨rfl, addSubReg_statEq r pidx cidx, addSubReg_statEq r' pidx cidx,
          rfl, rfl, ⟨[], rfl, rfl⟩⟩


/-- One step of the main build loop, on stat-equal registries. -/
theorem buildStep_sim (r r' : Reg) (cidx : Nat) (h : statEq r r') :
    (buildStep r cidx).2 = (buildStep r' cidx).2 ∧
    statEq (buildStep r cidx).1 r ∧
    statEq (buildStep r' cidx).1 r' ∧
    (buildStep r cidx).1.flagCmdMap = r.flagCmdMap ∧
    (buildStep r' cidx).1.flagCmdMap = r'.flagCmdMap ∧
    ∃ P, (buildStep r cidx).1.pathMap = P ++ r.pathMap ∧
         (buildStep r' cidx).1.pathMap = P ++ r'.pathMap := by
  have hnm : (cmdAt r cidx).name = (cmdAt r' cidx).name := by
    have h2 := congrArg CmdState.name (cmdAt_shadow_eq r r' h.2.2.2 cidx)
    simpa [shadow] using h2
  have hpt : (cmdAt r cidx).parentTypes = (cmdAt r' cidx).parentTypes := by
    have h2 := congrArg CmdState.parentTypes (cmdAt_shadow_eq r r' h.2.2.2 cidx)
    simpa [shadow] using h2
  by_cases he : (cmdAt r cidx).parentTypes.isEmpty
  · have key : buildStep r cidx =
        ({ r with pathMap := ((cmdAt r cidx).name, cidx) :: r.pathMap }, none) := by
      unfold buildStep
      rw [if_pos he]
    have key2 : buildStep r' cidx =
        ({ r' with pathMap := ((cmdAt r' cidx).name, cidx) :: r'.pathMap }, none) := by
      unfold buildStep
      rw [if_pos (by rw [← hpt]; exact he)]
    rw [key, key2]
    exact ⟨rfl, ⟨rfl, rfl, rfl, rfl⟩, ⟨rfl, rfl, rfl, rfl⟩, rfl, rfl,
      ⟨[((cmdAt r cidx).name, cidx)], rfl, by rw [hnm]; exact rfl⟩⟩
  · have key : buildStep r cidx = buildParents r cidx (cmdAt r cidx).parentTypes := by
      unfold buildStep
      rw [if_neg he]
    have key2 : buildStep r' cidx = buildParents r' cidx (cmdAt r' cidx).parentTypes := by
      unfold buildStep
      rw [if_neg (by rw [← hpt]; exact he)]
    rw [key, key2, ← hpt]
    exact buildParents_sim (cmdAt r cidx).parentTypes r r' cidx h

/-- The main build loop, on stat-equal registries. -/
theorem buildAll_sim : ∀ (l : List Nat) (r r' : Reg), statEq r r' →
    (buildAll r l).2 = (buildAll r' l).2 ∧
    statEq (buildAll r l).1 r ∧
    statEq (buildAll r' l).1 r' ∧
    (buildAll r l).1.flagCmdMap = r.flagCmdMap ∧
    (buildAll r' l).1.flagCmdMap = r'.flagCmdMap ∧
    ∃ P, (buildAll r l).1.pathMap = P ++ r.pathMap ∧
         (buildAll r' l).1.pathMap = P ++ r'.pathMap := by
  intro l
  induction l with
  | nil =>
    intro r r' h
    exact ⟨rfl, statEq_refl r, statEq_refl r', rfl, rfl, ⟨[], rfl, rfl⟩⟩
  | cons i is ih =>
    intro r r' h
    obtain ⟨se, ssa, ssb, sfa, sfb, Q, sqa, sqb⟩ := buildStep_sim r r' i h
    cases hs : (buildStep r i).2 with
    | none =>
      have hs2 : (buildStep r' i).2 = none := by rw [← se]; exact hs
      have key : buildAll r (i :: is) = buildAll (buildStep r i).1 is := by
        simp only [buildAll, hs, optCase_none]
      have key2 : buildAll r' (i :: is) = buildAll (buildStep r' i).1 is := by
        simp only [buildAll, hs2, optCase_none]
      rw [key, key2]
      obtain ⟨ae, aa, ab, afa, afb, P, apa, apb⟩ :=
        ih (buildStep r i).1 (buildStep r' i).1
          (statEq_trans (statEq_trans ssa h) (statEq_symm ssb))
      refine ⟨ae, statEq_trans aa ssa, statEq_trans ab ssb,
        afa.trans sfa, afb.trans sfb, ⟨P ++ Q, ?_, ?_⟩⟩
      · rw [apa, sqa, List.append_assoc]
      · rw [apb, sqb, List.append_assoc]
    | some e =>
      have hs2 : (buildStep r' i).2 = some e := by rw [← se]; exact hs
      have key : buildAll r (i :: is) = buildStep r i := by
        simp only [buildAll, hs, optCase_some]
      have key2 : buildAll r' (i :: is) = buildStep r' i := by
        simp only [buildAll, hs2, optCase_some]
      rw [key, key2]
      exact ⟨se, ssa, ssb, sfa, sfb, ⟨Q, sqa, sqb⟩⟩


/-- Association lookup distributes over append. -/
theorem lookupA_append (k : String) : ∀ (P m : List (String × Nat)),
    lookupA (P ++ m) k =
      (match lookupA P k with
       | some v => some v
       | none => lookupA m k) := by
  intro P
  induction P with
  | nil => intro m; simp [lookupA]
  | cons p P ih =>
    intro m
    by_cases h : p.1 == k
    · simp [lookupA, List.find?, h]
    · simp only [lookupA, List.cons_append, List.find?] at *
      rw [Bool.not_eq_true] at h
      rw [h]
      exact ih m

/-- Prepending the same block twice changes no lookups. -/
theorem lookupA_dup (k : String) (P m : List (String × Nat)) :
    lookupA (P ++ (P ++ m)) k = lookupA (P ++ m) k := by
  rw [lookupA_append, lookupA_append]
  cases lookupA P k <;> rfl

/-- The flag-map fold prepends the reversed trigger pairs. -/
theorem flagFold_eq (reg : Reg) : ∀ (l : List Nat) (m : List (String × Nat)),
    l.foldl
      (fun m i =>
        let c := cmdAt reg i
        if c.flagName = "" then m else (c.flagName, i) :: m) m =
      (flagPairs reg l).reverse ++ m := by
  intro l
  induction l with
  | nil => intro m; simp [flagPairs]
  | cons i is ih =>
    intro m
    by_cases h : (cmdAt reg i).flagName = ""
    · simp only [List.foldl_cons, flagPairs, List.filterMap_cons, h, if_pos, if_true]
      exact ih m
    · simp only [List.foldl_cons, flagPairs, List.filterMap_cons, h, if_neg, if_false,
        List.reverse_cons, List.append_assoc, List.singleton_append]
      rw [ih ((( cmdAt reg i).flagName, i) :: m)]
      simp [flagPairs]

/-- The flag pairs depend only on the stat view. -/
theorem flagPairs_congr (r r' : Reg) (h : statEq r r') (l : List Nat) :
    flagPairs r l = flagPairs r' l := by
  unfold flagPairs
  induction l with
  | nil => rfl
  | cons i is ih =>
    simp only [List.filterMap_cons]
    have hfl : (cmdAt r i).flagName = (cmdAt r' i).flagName := by
      have h2 := congrArg CmdState.flagName (cmdAt_shadow_eq r r' h.2.2.2 i)
      simpa [shadow] using h2
    rw [hfl, ih]

/-- `buildFlagMap` prepends the trigger pairs and changes nothing else. -/
theorem buildFlagMap_spec (reg : Reg) :
    (buildFlagMap reg).flagCmdMap = (flagPairs reg reg.commands).reverse ++ reg.flagCmdMap ∧
    statEq (buildFlagMap reg) reg ∧
    (buildFlagMap reg).pathMap = reg.pathMap := by
  refine ⟨?_, ⟨rfl, rfl, rfl, rfl⟩, rfl⟩
  show reg.commands.foldl _ reg.flagCmdMap = _
  exact flagFold_eq reg reg.commands reg.flagCmdMap


/-- `ValidateCommands` reads only the stat view of the registry, so
tree building (which only grows child lists and indices) cannot change
its result. -/
theorem validateCommands_congr (r r' : Reg) (h : statEq r r') :
    validateCommands r = validateCommands r' := by
  have hfs : ∀ i, fsAt r i = fsAt r' i := by
    intro i; unfold fsAt; rw [h.2.2.1]
  have hsh : ∀ i, shadow (cmdAt r i) = shadow (cmdAt r' i) :=
    cmdAt_shadow_eq r r' h.2.2.2
  have hname : ∀ i, (cmdAt r i).name = (cmdAt r' i).name := by
    intro i
    have h2 := congrArg CmdState.name (hsh i)
    simpa [shadow] using h2
  have hfsets : ∀ i, (cmdAt r i).flagSets = (cmdAt r' i).flagSets := by
    intro i
    have h2 := congrArg CmdState.flagSets (hsh i)
    simpa [shadow] using h2
  have hflag : ∀ i, (cmdAt r i).flagName = (cmdAt r' i).flagName := by
    intro i
    have h2 := congrArg CmdState.flagName (hsh i)
    simpa [shadow] using h2
  have hpt : ∀ i, (cmdAt r i).parentTypes = (cmdAt r' i).parentTypes := by
    intro i
    have h2 := congrArg CmdState.parentTypes (hsh i)
    simpa [shadow] using h2
  unfold validateCommands check2Cmds check3Cmds
  rw [check1Cmds_eq, check1Cmds_eq, ← h.1]
  simp only [hfs, hname, hfsets, hflag, hpt]

/-- C9 amended: rebuilding the tree on an unchanged registry returns
the same error as the first build, and leaves every path-index and
trigger-flag-index lookup unchanged; `ValidateCommands` reads only
state that building never alters, so its (pure) result is also the
same before and after any number of builds.  (The child lists are NOT
idempotent — see the counterexample — which is the one part of the
claim that fails.) -/
theorem c9_idempotent_indices (reg : Reg) :
    (buildCommandTree (buildCommandTree reg).1).2 = (buildCommandTree reg).2 ∧
    (∀ p, getExactCommand (buildCommandTree (buildCommandTree reg).1).1 p =
          getExactCommand (buildCommandTree reg).1 p) ∧
    (∀ f, lookupA (buildCommandTree (buildCommandTree reg).1).1.flagCmdMap f =
          lookupA (buildCommandTree reg).1.flagCmdMap f) ∧
    validateCommands (buildCommandTree reg).1 = validateCommands reg := by
  obtain ⟨se, ssa, ssb, sfa, sfb, P, spa, spb⟩ :=
    buildAll_sim reg.commands reg reg (statEq_refl reg)
  cases hs : (buildAll reg reg.commands).2 with
  | some e =>
    have key : buildCommandTree reg = buildAll reg reg.commands := by
      simp only [buildCommandTree, hs, optCase_some]
    have hcm : (buildAll reg reg.commands).1.commands = reg.commands := ssa.1
    obtain ⟨ae, aa, ab, afa, afb, Q, aqa, aqb⟩ :=
      buildAll_sim reg.commands reg (buildAll reg reg.commands).1 (statEq_symm ssa)
    have hrun2 : buildAll (buildAll reg reg.commands).1 (buildAll reg reg.commands).1.commands =
        buildAll (buildAll reg reg.commands).1 reg.commands := by rw [hcm]
    have he2 : (buildAll (buildAll reg reg.commands).1 reg.commands).2 = some e := by
      rw [← ae]; exact hs
    have key2 : buildCommandTree (buildCommandTree reg).1 =
        buildAll (buildAll reg reg.commands).1 reg.commands := by
      rw [key]
      simp only [buildCommandTree, hrun2, he2, optCase_some]
    refine ⟨?_, ?_, ?_, ?_⟩
    · rw [key2, he2, key, hs]
    · intro p
      unfold getExactCommand
      rw [key2, key, aqb, aqa]
      exact lookupA_dup p Q reg.pathMap
    · intro f
      rw [key2, key, afb]
    · rw [key]
      exact validateCommands_congr _ _ ssa
  | none =>
    have key : buildCommandTree reg = (buildFlagMap (buildAll reg reg.commands).1, none) := by
      simp only [buildCommandTree, hs, optCase_none]
    have hbfm := buildFlagMap_spec (buildAll reg reg.commands).1
    set r1 : Reg := (buildCommandTree reg).1 with hr1
    have hr1b : r1 = buildFlagMap (buildAll reg reg.commands).1 := by rw [hr1, key]
    have hst1 : statEq r1 reg := by
      rw [hr1b]
      exact statEq_trans hbfm.2.1 ssa
    have hcm : r1.commands = reg.commands := hst1.1
    obtain ⟨ae, aa, ab, afa, afb, Q, aqa, aqb⟩ :=
      buildAll_sim reg.commands reg r1 (statEq_symm hst1)
    have hrun2 : buildAll r1 r1.commands = buildAll r1 reg.commands := by rw [hcm]
    have he2 : (buildAll r1 reg.commands).2 = none := by rw [← ae]; exact hs
    have key2 : buildCommandTree r1 = (buildFlagMap (buildAll r1 reg.commands).1, none) := by
      simp only [buildCommandTree, hrun2, he2, optCase_none]
    have hbfm2 := buildFlagMap_spec (buildAll r1 reg.commands).1
    have hr1p : r1.pathMap = Q ++ reg.pathMap := by
      rw [hr1b, hbfm.2.2, aqa]
    refine ⟨?_, ?_, ?_, ?_⟩
    · rw [key2, key]
    · intro p
      unfold getExactCommand
      rw [key2]
      show lookupA (buildFlagMap (buildAll r1 reg.commands).1).pathMap p = lookupA r1.pathMap p
      rw [hbfm2.2.2, aqb, hr1p]
      exact lookupA_dup p Q reg.pathMap
    · intro f
      rw [key2]
      show lookupA (buildFlagMap (buildAll r1 reg.commands).1).flagCmdMap f =
        lookupA r1.flagCmdMap f
      rw [hbfm2.1]
      have hYc : (buildAll r1 reg.commands).1.commands = reg.commands := by rw [ab.1, hcm]
      have hsc : (buildAll reg reg.commands).1.commands = reg.commands := ssa.1
      have hYs : statEq (buildAll r1 reg.commands).1 (buildAll reg reg.commands).1 :=
        statEq_trans ab (statEq_trans hst1 (statEq_symm ssa))
      have hpairs : flagPairs (buildAll r1 reg.commands).1
            (buildAll r1 reg.commands).1.commands =
          flagPairs (buildAll reg reg.commands).1 (buildAll reg reg.commands).1.commands := by
        rw [hYc, hsc]
        exact flagPairs_congr _ _ hYs reg.commands
      have hr1f : r1.flagCmdMap =
          (flagPairs (buildAll reg reg.commands).1
            (buildAll reg reg.commands).1.commands).reverse ++ reg.flagCmdMap := by
        rw [hr1b, hbfm.1, sfa]
      rw [hpairs, afb, hr1f]
      exact lookupA_dup f (flagPairs (buildAll reg reg.commands).1
        (buildAll reg reg.commands).1.commands).reverse reg.flagCmdMap
    · exact validateCommands_congr _ _ hst1



/-! ### Longest-prefix resolution: code vs spec -/

/-- Without delegates, `GetDefaultCommand` is exactly a path lookup. -/
theorem gdc_nodel (reg : Reg) (hdel : ∀ c ∈ reg.cmdHeap, c.delegateTo = none)
    (path : String) (args : List String) :
    getDefaultCommand reg path args = some (lookupA reg.pathMap path, path) := by
  have hdel2 : ∀ i, (cmdAt reg i).delegateTo = none := by
    intro i
    by_cases hlt : i < reg.cmdHeap.length
    · apply hdel
      unfold cmdAt
      rw [List.getD_eq_getElem?_getD, List.getElem?_eq_getElem hlt]
      exact List.getElem_mem hlt
    · unfold cmdAt
      rw [List.getD_eq_default _ _ (Nat.le_of_not_lt hlt)]
      rfl
  cases hl : lookupA reg.pathMap path with
  | none => simp only [getDefaultCommand, hl]
  | some i => simp only [getDefaultCommand, hl, hdel2 i]

/-- The head of the dropped segment fails the predicate. -/
theorem head_dropWhile_false (p : String → Bool) : ∀ (l : List String) (x : String),
    (l.dropWhile p).head? = some x → p x = false := by
  intro l
  induction l with
  | nil => intro x h; cases h
  | cons a as ih =>
    intro x h
    by_cases hp : p a
    · rw [List.dropWhile_cons_of_pos hp] at h
      exact ih x h
    · rw [List.dropWhile_cons_of_neg hp] at h
      simp only [List.head?_cons, Option.some_inj] at h
      subst h
      exact Bool.not_eq_true _ |>.mp hp

/-- Trimming the dots from `"." ++ t` recovers `t` when `t` does not
itself start with a dot. -/
theorem dropDots_dot (t : String) (h : strHasPre t "." = false) :
    dropDots ("." ++ t) = t := by
  unfold dropDots
  have hdata : ("." ++ t).data = '.' :: t.data := by
    simp [String.data_append]
  rw [hdata]
  rw [List.dropWhile_cons_of_pos (by decide)]
  cases ht : t.data with
  | nil =>
    have : t = ⟨[]⟩ := by cases t; simp_all
    rw [this]
    rfl
  | cons c cs =>
    unfold strHasPre at h
    rw [ht] at h
    have hdot : ".".data = ['.'] := rfl
    rw [hdot] at h
    have hne : ¬ ('.' = c) := by simpa [List.isPrefixOf] using h
    have hc : (c == '.') = false := by
      simpa using fun hh => hne hh.symm
    rw [List.dropWhile_cons_of_neg (by simp [hc])]
    cases t
    simp_all


/-- The candidate accumulation ignores the trailing dash segment. -/
theorem ascAux_stop : ∀ (ts : List String) (cur : String) (rest : List String),
    (∀ t ∈ ts, strHasPre t "-" = false) →
    (∀ x, rest.head? = some x → strHasPre x "-" = true) →
    ascAux cur (ts ++ rest) = scanDots cur ts := by
  intro ts
  induction ts with
  | nil =>
    intro cur rest h1 h2
    cases rest with
    | nil => rfl
    | cons x xs =>
      have hx := h2 x rfl
      simp only [List.nil_append, ascAux, scanDots, hx, if_true]
  | cons t ts ih =>
    intro cur rest h1 h2
    have ht := h1 t (List.mem_cons_self t ts)
    simp only [List.cons_append, ascAux, scanDots, ht, Bool.false_eq_true, if_false, List.append_eq]
    rw [ih (cur ++ "." ++ t) rest (fun a ha => h1 a (List.mem_cons_of_mem t ha)) h2]

/-- The candidate list is a function of the lead segment. -/
theorem pathsAsc_lead : ∀ (lead rest : List String),
    (∀ t ∈ lead, strHasPre t "-" = false) →
    (∀ x, rest.head? = some x → strHasPre x "-" = true) →
    (∀ t ∈ lead.take 1, strHasPre t "." = false) →
    pathsAsc (lead ++ rest) = ascLead lead := by
  intro lead rest h1 h2 hhd
  cases lead with
  | nil =>
    cases rest with
    | nil => rfl
    | cons x xs =>
      have hx := h2 x rfl
      simp only [List.nil_append, pathsAsc, ascLead, hx, if_true]
  | cons t ts =>
    have ht := h1 t (List.mem_cons_self t ts)
    have hd := hhd t (by simp)
    simp only [List.cons_append, pathsAsc, ascLead, ht, Bool.false_eq_true, if_false]
    rw [dropDots_dot t hd]
    rw [ascAux_stop ts t rest (fun a ha => h1 a (List.mem_cons_of_mem t ha)) h2]

/-- Extending the scan by one token appends one candidate. -/
theorem scanDots_concat : ∀ (ts : List String) (cur x : String),
    scanDots cur (ts ++ [x]) =
      scanDots cur ts ++ [(ts.foldl (fun a b => a ++ "." ++ b) cur) ++ "." ++ x] := by
  intro ts
  induction ts with
  | nil => intro cur x; rfl
  | cons t ts ih =>
    intro cur x
    simp only [List.cons_append, scanDots, List.foldl_cons, List.append_eq]
    rw [ih (cur ++ "." ++ t) x]

/-- Extending the lead by one token appends the longer dotted join. -/
theorem ascLead_concat (l : List String) (x : String) (h : l ≠ []) :
    ascLead (l ++ [x]) = ascLead l ++ [dotJoin (l ++ [x])] := by
  cases l with
  | nil => exact absurd rfl h
  | cons t ts =>
    simp only [List.cons_append, ascLead, dotJoin]
    rw [scanDots_concat ts t x]
    simp [List.foldl_append]

/-- A dotted join of tokens starting with a non-empty token is
non-empty. -/
theorem dotJoin_ne (t0 : String) (ts : List String) (h : t0 ≠ "") :
    dotJoin (t0 :: ts) ≠ "" := by
  have hlen : ∀ (l : List String) (cur : String),
      cur.length ≤ (l.foldl (fun a b => a ++ "." ++ b) cur).length := by
    intro l
    induction l with
    | nil => intro cur; exact Nat.le_refl _
    | cons x xs ih =>
      intro cur
      refine Nat.le_trans ?_ (ih (cur ++ "." ++ x))
      rw [String.length_append, String.length_append]
      omega
  intro hcon
  have h0 : t0.length ≤ (dotJoin (t0 :: ts)).length := hlen ts t0
  rw [hcon] at h0
  have : t0.length = 0 := Nat.le_zero.mp h0
  apply h
  have hd : t0.data.length = 0 := this
  cases t0 with
  | mk d =>
    cases d with
    | nil => rfl
    | cons a as => cases hd


/-- The candidate loop of `findBestCmdMatch` computes the spec's
longest-prefix resolution, delegates absent. -/
theorem fbcm_spec_aux (reg : Reg) (args : List String)
    (hdel : ∀ c ∈ reg.cmdHeap, c.delegateTo = none) :
    ∀ (lead : List String),
      (∀ k, 1 ≤ k → k ≤ lead.length → dotJoin (args.take k) ≠ "" ∧ args.take k = lead.take k) →
      fbcmLoop reg args lead.length (ascLead lead).reverse = some (specGo reg args lead.length) := by
  intro lead
  induction lead using List.reverseRecOn with
  | nil =>
    intro hk
    rfl
  | append_singleton l x ih =>
    intro hk
    have hkl : ∀ k, 1 ≤ k → k ≤ l.length → dotJoin (args.take k) ≠ "" ∧ args.take k = l.take k := by
      intro k h1 h2
      obtain ⟨ha, hb⟩ := hk k h1 (Nat.le_trans h2 (by simp))
      refine ⟨ha, ?_⟩
      rw [hb, List.take_append_of_le_length h2]
    have hlen : (l ++ [x]).length = l.length + 1 := by simp
    obtain ⟨hne, htake⟩ := hk (l.length + 1) (Nat.le_add_left 1 l.length) (by simp)
    have htake2 : args.take (l.length + 1) = l ++ [x] := by
      rw [htake, show l.length + 1 = (l ++ [x]).length by simp, List.take_length]
    by_cases hl0 : l = []
    · subst hl0
      simp only [List.length_nil, Nat.zero_add, List.nil_append] at htake2 ⊢
      have hasc : (ascLead [x]).reverse = [x] := rfl
      rw [hasc]
      show fbcmLoop reg args 1 [x] = some (specGo reg args 1)
      have hdj : dotJoin (args.take 1) = x := by rw [htake2]; rfl
      simp only [fbcmLoop, gdc_nodel reg hdel x args]
      cases hlx : lookupA reg.pathMap x with
      | none =>
        simp only [specGo, hdj, hlx, Option.isSome_none, Bool.false_eq_true, if_false]
      | some v =>
        have hxne : x ≠ "" := by rw [← hdj]; exact hne
        simp only [hxne, if_neg, specGo, hdj, hlx, Option.isSome_some, if_true]
        simp [hxne]
    · have hasc : (ascLead (l ++ [x])).reverse =
          dotJoin (l ++ [x]) :: (ascLead l).reverse := by
        rw [ascLead_concat l x hl0]
        simp
      rw [hlen, hasc]
      have hdj : dotJoin (args.take (l.length + 1)) = dotJoin (l ++ [x]) := by rw [htake2]
      simp only [fbcmLoop, gdc_nodel reg hdel (dotJoin (l ++ [x])) args]
      cases hlx : lookupA reg.pathMap (dotJoin (l ++ [x])) with
      | none =>
        simp only [specGo, hdj, hlx, Option.isSome_none, Bool.false_eq_true, if_false]
        have : l.length + 1 - 1 = l.length := by omega
        rw [this]
        exact ih hkl
      | some v =>
        have hxne : dotJoin (l ++ [x]) ≠ "" := by rw [← hdj]; exact hne
        simp only [hxne, if_neg, specGo, hdj, hlx, Option.isSome_some, if_true]
        simp [hxne]


/-- C1: longest-prefix resolution.  With no delegates declared (C2
covers delegation separately) and a first token that is non-empty and
does not start with a dot (so the code's dot-join equals the spec's),
`findBestCmdMatch` computes exactly the spec's procedure: try the
dotted join of the first `k` tokens for `k = n, n-1, …, 1` (`n` the
number of leading non-dash tokens) against the path index, first
registered candidate wins, and the tokens after the matched `k` are
returned as the remaining input.  The closing conjuncts instantiate
the claim's example: with `a.b.c` and `a.b` both registered, tokens
`["a","b","c"]` resolve to the command at `a.b.c` with zero remaining
tokens. -/
theorem c1_longest_match (reg : Reg) (args : List String)
    (hdel : ∀ c ∈ reg.cmdHeap, c.delegateTo = none)
    (hhd : ∀ t ∈ args.take 1, t ≠ "" ∧ strHasPre t "." = false) :
    findBestCmdMatch reg args = some (specResolve reg args) ∧
    findBestCmdMatch regC1 ["a", "b", "c"] = some ("a.b.c", []) ∧
    parseCmd regC1 [] ["a", "b", "c"] = some (some 2, none) ∧
    getExactCommand regC1 "a.b.c" = some 2 ∧
    getExactCommand regC1 "a.b" = some 1 ∧
    (cmdAt regC1 2).name = "c" := by
  refine ⟨?_, rfl, rfl, rfl, rfl, rfl⟩
  unfold findBestCmdMatch specResolve
  set lead := args.takeWhile (fun a => !strHasPre a "-") with hlead
  set rest := args.dropWhile (fun a => !strHasPre a "-") with hrest
  have hsplit : args = lead ++ rest := (List.takeWhile_append_dropWhile _ _).symm
  have h1 : ∀ t ∈ lead, strHasPre t "-" = false := by
    intro t ht
    have h2 := List.mem_takeWhile_imp ht
    simpa using h2
  have h2 : ∀ x, rest.head? = some x → strHasPre x "-" = true := by
    intro x hx
    have h3 := head_dropWhile_false _ args x hx
    simpa using h3
  have hfirst : ∀ t ts, lead = t :: ts → args.take 1 = [t] := by
    intro t ts hld
    rw [hsplit, hld]
    rfl
  have hhd1 : ∀ t ∈ lead.take 1, strHasPre t "." = false := by
    intro t ht
    cases hld : lead with
    | nil => rw [hld] at ht; cases ht
    | cons a as =>
      rw [hld] at ht
      simp only [List.take_succ_cons, List.take_zero, List.mem_singleton] at ht
      subst ht
      exact (hhd t (by rw [hfirst t as hld]; exact List.mem_singleton_self t)).2
  have hpaths : pathsAsc args = ascLead lead := by
    conv_lhs => rw [hsplit]
    exact pathsAsc_lead lead rest h1 h2 hhd1
  have hlc : leadCount args = lead.length := rfl
  rw [hlc, hpaths]
  apply fbcm_spec_aux reg args hdel lead
  intro k hk1 hk2
  have htk : args.take k = lead.take k := by
    conv_lhs => rw [hsplit]
    exact List.take_append_of_le_length hk2
  refine ⟨?_, htk⟩
  cases hld : lead with
  | nil =>
    rw [hld] at hk2
    simp at hk2
    omega
  | cons t ts =>
    have htne : t ≠ "" := (hhd t (by rw [hfirst t ts hld]; exact List.mem_singleton_self t)).1
    rw [htk, hld]
    cases k with
    | zero => omega
    | succ n =>
      rw [List.take_succ_cons]
      exact dotJoin_ne t _ htne

/-- C1 witness: a concrete three-token input on the `a`/`a.b`/`a.b.c`
registry where the deepest candidate misses and the two-token prefix
wins. -/
theorem c1_longest_match_witness :
    findBestCmdMatch regC1 ["a", "b", "x"] = some (specResolve regC1 ["a", "b", "x"]) ∧
    findBestCmdMatch regC1 ["a", "b", "x"] = some ("a.b", ["x"]) :=
  ⟨(c1_longest_match regC1 ["a", "b", "x"] (by decide) (by decide)).1, by decide⟩


/-! ### C3: one path per declared parent, all sharing the heap index -/

/-- `FullNamesAux` produces exactly one name slot per parent type. -/
theorem fullNamesAux_length (r : Reg) (fn : CmdState → FNRes) (cname : String) :
    ∀ (ts : List String) (ns : List String),
      fullNamesAux r fn cname ts = .ok ns → ns.length = ts.length := by
  intro ts
  induction ts with
  | nil =>
    intro ns h
    simp only [fullNamesAux] at h
    cases h
    rfl
  | cons t ts ih =>
    intro ns h
    cases hl : lookupA r.typeMap t with
    | none =>
      simp only [fullNamesAux, hl] at h
      exact FNRes.noConfusion h
    | some pidx =>
      cases hp : fn (cmdAt r pidx) with
      | ok pns =>
        cases hrec : fullNamesAux r fn cname ts with
        | ok rest =>
          simp only [fullNamesAux, hl, hp, hrec] at h
          cases h
          simp [List.length_cons, ih rest hrec]
        | nilDeref =>
          simp only [fullNamesAux, hl, hp, hrec] at h
          exact FNRes.noConfusion h
        | fuelOut =>
          simp only [fullNamesAux, hl, hp, hrec] at h
          exact FNRes.noConfusion h
      | nilDeref =>
        simp only [fullNamesAux, hl, hp] at h
        exact FNRes.noConfusion h
      | fuelOut =>
        simp only [fullNamesAux, hl, hp] at h
        exact FNRes.noConfusion h

/-- A command with parents has exactly one full name per parent type. -/
theorem cmdFullNames_len (r : Reg) (c : CmdState) (ns : List String)
    (hpt : c.parentTypes ≠ []) (h : cmdFullNames r c = .ok ns) :
    ns.length = c.parentTypes.length := by
  unfold cmdFullNames fnFuel at h
  simp only [fullNames] at h
  have hne : ¬ c.parentTypes.isEmpty := fun hE => hpt (List.isEmpty_iff.mp hE)
  rw [if_neg hne] at h
  exact fullNamesAux_length r _ c.name c.parentTypes ns h

/-- When every binding of a key maps to the same value, the lookup of a
present key returns that value. -/
theorem lookupA_of_mem : ∀ (m : List (String × Nat)) (k : String) (v : Nat),
    (k, v) ∈ m → (∀ pr ∈ m, pr.1 = k → pr.2 = v) → lookupA m k = some v := by
  intro m
  induction m with
  | nil => intro k v hm _; cases hm
  | cons p ps ih =>
    intro k v hm hu
    by_cases hb : (p.1 == k) = true
    · have hk : p.1 = k := eq_of_beq hb
      have hv : p.2 = v := hu p (List.mem_cons_self p ps) hk
      simp only [lookupA, List.find?, hb]
      simp [hv]
    · have hb2 : (p.1 == k) = false := by
        rw [Bool.not_eq_true] at hb
        exact hb
      have hkey : lookupA (p :: ps) k = lookupA ps k := by
        simp only [lookupA, List.find?, hb2]
      rw [hkey]
      rcases List.mem_cons.mp hm with heq | hmem
      · exact absurd (congrArg Prod.fst heq).symm (fun h2 => hb (beq_iff_eq.mpr h2))
      · exact ih k v hmem (fun pr hpr h1 => hu pr (List.mem_cons_of_mem p hpr) h1)

/-- The per-parent pass records the child under each of its full names:
once the first parent resolves, every full name is inserted into the
path map (and later insertions, being prepends, preserve membership). -/
theorem buildParents_child_mem (r : Reg) (cidx : Nat) (t : String)
    (ts : List String) (fns : List String)
    (hok : (buildParents r cidx (t :: ts)).2 = none)
    (hf : cmdFullNames r (cmdAt r cidx) = .ok fns) :
    ∀ fn ∈ fns, (fn, cidx) ∈ (buildParents r cidx (t :: ts)).1.pathMap := by
  cases hl : lookupA r.typeMap t with
  | none =>
    have key : buildParents r cidx (t :: ts) =
        (r, some (.parentNotFound t (cmdAt r cidx).name)) := by
      simp only [buildParents, hl, optCase_none]
    rw [key] at hok
    exact Option.noConfusion hok
  | some pidx =>
    have hfn2 : cmdFullNames (addSubReg r pidx cidx)
        (cmdAt (addSubReg r pidx cidx) cidx) = .ok fns := by
      rw [cmdFullNames_congr (addSubReg r pidx cidx) r (addSubReg_statEq r pidx cidx)
        _ _ (cmdAt_shadow_eq _ _ (addSubReg_statEq r pidx cidx).2.2.2 cidx)]
      exact hf
    have key : buildParents r cidx (t :: ts) =
        buildParents (insertPaths (addSubReg r pidx cidx) fns cidx) cidx ts := by
      simp only [buildParents, hl, optCase_some, hfn2, fnCase_ok]
    rw [key]
    intro fn hfn
    obtain ⟨_, _, _, _, _, P, hpa, _⟩ :=
      buildParents_sim ts (insertPaths (addSubReg r pidx cidx) fns cidx)
        (insertPaths (addSubReg r pidx cidx) fns cidx) cidx (statEq_refl _)
    rw [hpa]
    apply List.mem_append_right
    show (fn, cidx) ∈ insertAll fns cidx (addSubReg r pidx cidx).pathMap
    rw [insertAll_eq]
    apply List.mem_append_left
    rw [List.mem_reverse]
    exact List.mem_map_of_mem _ hfn

/-- Through the whole build loop: a successfully built child with
parents ends up indexed under each of its full names. -/
theorem buildAll_child_mem : ∀ (l : List Nat) (r : Reg) (i : Nat) (fns : List String),
    (buildAll r l).2 = none → i ∈ l →
    (cmdAt r i).parentTypes ≠ [] →
    cmdFullNames r (cmdAt r i) = .ok fns →
    ∀ fn ∈ fns, (fn, i) ∈ (buildAll r l).1.pathMap := by
  intro l
  induction l with
  | nil => intro r i fns _ hi; cases hi
  | cons j js ih =>
    intro r i fns hok hi hpt hf
    cases hsj : (buildStep r j).2 with
    | some e =>
      have key : buildAll r (j :: js) = buildStep r j := by
        simp only [buildAll, hsj, optCase_some]
      rw [key, hsj] at hok
      exact Option.noConfusion hok
    | none =>
      have key : buildAll r (j :: js) = buildAll (buildStep r j).1 js := by
        simp only [buildAll, hsj, optCase_none]
      rw [key] at hok ⊢
      rcases List.mem_cons.mp hi with heq | hij
      · subst heq
        have hne : ¬ (cmdAt r i).parentTypes.isEmpty :=
          fun hE => hpt (List.isEmpty_iff.mp hE)
        have keystep : buildStep r i = buildParents r i (cmdAt r i).parentTypes := by
          unfold buildStep
          rw [if_neg hne]
        cases hpts : (cmdAt r i).parentTypes with
        | nil => exact absurd hpts hpt
        | cons t ts =>
          have hok2 : (buildParents r i (t :: ts)).2 = none := by
            rw [← hpts, ← keystep]
            exact hsj
          have hmem := buildParents_child_mem r i t ts fns hok2 hf
          intro fn hfn
          obtain ⟨_, _, _, _, _, PA, hqa, _⟩ :=
            buildAll_sim js (buildStep r i).1 (buildStep r i).1 (statEq_refl _)
          rw [hqa]
          apply List.mem_append_right
          rw [keystep, hpts]
          exact hmem fn hfn
      · have hstat : statEq (buildStep r j).1 r :=
          (buildStep_sim r r j (statEq_refl r)).2.1
        have hsh := cmdAt_shadow_eq (buildStep r j).1 r hstat.2.2.2 i
        have hpt2 : (cmdAt (buildStep r j).1 i).parentTypes = (cmdAt r i).parentTypes := by
          have h2 := congrArg CmdState.parentTypes hsh
          simpa [shadow] using h2
        have hf2 : cmdFullNames (buildStep r j).1 (cmdAt (buildStep r j).1 i) = .ok fns := by
          rw [cmdFullNames_congr (buildStep r j).1 r hstat _ _ hsh]
          exact hf
        exact ih (buildStep r j).1 i fns hok hij (by rw [hpt2]; exact hpt) hf2

/-- C3: after a successful tree build, every command registered with
parents is indexed in the path map under exactly ONE dotted path per
declared parent — the path built from that parent's LAST full name —
not under every path the parent is known by; each of those path-map
entries holds the same heap index (the descriptor is shared, not
copied), and where such a path is bound only to this child the path
lookup resolves to it. -/
theorem c3_one_path_per_parent (reg : Reg) (i : Nat) (fns : List String)
    (hb : (buildCommandTree reg).2 = none)
    (hi : i ∈ reg.commands)
    (hp : (cmdAt reg i).parentTypes ≠ [])
    (hf : cmdFullNames reg (cmdAt reg i) = .ok fns) :
    fns.length = (cmdAt reg i).parentTypes.length ∧
    ∀ fn ∈ fns, (fn, i) ∈ (buildCommandTree reg).1.pathMap ∧
      ((∀ pr ∈ (buildCommandTree reg).1.pathMap, pr.1 = fn → pr.2 = i) →
        getExactCommand (buildCommandTree reg).1 fn = some i) := by
  cases hs : (buildAll reg reg.commands).2 with
  | some e =>
    have key : buildCommandTree reg = buildAll reg reg.commands := by
      simp only [buildCommandTree, hs, optCase_some]
    rw [key, hs] at hb
    exact Option.noConfusion hb
  | none =>
    have key : buildCommandTree reg =
        (buildFlagMap (buildAll reg reg.commands).1, none) := by
      simp only [buildCommandTree, hs, optCase_none]
    have hmem := buildAll_child_mem reg.commands reg i fns hs hi hp hf
    refine ⟨cmdFullNames_len reg (cmdAt reg i) fns hp hf, ?_⟩
    intro fn hfn
    have hmem2 : (fn, i) ∈ (buildCommandTree reg).1.pathMap := by
      rw [key]
      show (fn, i) ∈ (buildFlagMap (buildAll reg reg.commands).1).pathMap
      rw [(buildFlagMap_spec (buildAll reg reg.commands).1).2.2]
      exact hmem fn hfn
    exact ⟨hmem2, fun huniq => lookupA_of_mem _ fn i hmem2 huniq⟩

/-- C3 witness: on the two-parent registry, the child `c` (heap index
3, one declared parent `PCmd`) is indexed under its single full name
`b.p.c`, which resolves back to index 3. -/
theorem c3_one_path_witness :
    (("b.p.c", 3) ∈ (buildCommandTree regC3pre).1.pathMap ∧
      getExactCommand (buildCommandTree regC3pre).1 "b.p.c" = some 3) ∧
    ["b.p.c"].length = (cmdAt regC3pre 3).parentTypes.length := by
  have h := c3_one_path_per_parent regC3pre 3 ["b.p.c"]
    (by decide) (by decide) (by decide) (by decide)
  have h2 := h.2 "b.p.c" (by decide)
  exact ⟨⟨h2.1, h2.2 (by decide)⟩, h.1⟩

end Cliutil
